import Mathlib

/-!
Shallow embedding of the AI_TrendPulse evidence-reduction and
structured-synthesis pipeline (backend/app), together with theorems
settling the frozen specification claims.

Conventions used throughout:
* Python integers are `ℤ` (floor division `//` is `Int.fdiv`), list
  indices are `ℕ`.
* Python floats appearing in formulas are modelled as exact reals (`ℝ`)
  or rationals (`ℚ`); `round` is Python's round-half-to-even.
* External, non-deterministic services (the LLM oracle, the embedding
  model, `sklearn` K-means, `langdetect`) are parameters of the
  embedded functions: the theorems quantify over every possible
  behaviour of those services.
-/

namespace TrendPulse

/-! ## LLMClient.analyze_json_with_repair (app/analyzers/llm_client.py)

The oracle (`self.chat`) returns raw text; `_safe_json_loads` either
yields a parsed payload or a parse error.  We model the parse outcome of
each of the two possible chat responses directly as `Option α` (`none`
= `json.loads` raised), and the validator as the Python callable
`validator : α → Bool × String`.  The embedding additionally counts how
many oracle (chat) calls were made. -/

/-- Outcome of one extraction: the Python function either returns a
payload or raises `ValueError msg`. -/
inductive ExtractionResult (α : Type) where
  | ok (payload : α)
  | failure (msg : String)
  deriving DecidableEq, Repr

/-- A run of `analyze_json_with_repair` together with its oracle-call
count. -/
structure ExtractionTrace (α : Type) where
  result : ExtractionResult α
  oracleCalls : ℕ
  deriving DecidableEq, Repr

/-- `LLMClient.analyze_json_with_repair` (llm_client.py, lines 70-114).
`firstParsed` / `repairParsed` are the `_safe_json_loads` outcomes of
the first and repair chat responses; `firstErr` / `repairErr` the
corresponding parse-error strings.  The first chat call always happens;
the repair chat call happens only on the fall-through path. -/
def analyzeJsonWithRepair {α : Type} (validator : α → Bool × String)
    (firstParsed : Option α)
    (repairParsed : Option α) (repairErr : String) : ExtractionTrace α :=
  match firstParsed with
  | some data =>
    if (validator data).1 then
      ⟨.ok data, 1⟩
    else
      -- error := verror or error; then the single repair round
      repairRound validator repairParsed repairErr
  | none => repairRound validator repairParsed repairErr
where
  /-- The repair half of `analyze_json_with_repair`: one more chat
  call, parse, validate, raise on any failure. -/
  repairRound (validator : α → Bool × String)
      (repairParsed : Option α) (repairErr : String) : ExtractionTrace α :=
    match repairParsed with
    | none => ⟨.failure repairErr, 2⟩
    | some repairData =>
      if (validator repairData).1 then ⟨.ok repairData, 2⟩
      else ⟨.failure (validator repairData).2, 2⟩

/-! ## ClusteringAnalyzer target-count planning (app/analyzers/clustering.py) -/

/-- `ClusteringAnalyzer._parse_thresholds` (clustering.py, lines
98-110).  The raw setting is a comma-separated string; `int(part)`
either parses a token or raises, which we model by giving each
stripped, non-empty token its parse outcome `Option ℤ` (`none` =
`ValueError`).  Non-positive values are discarded; the survivors are
deduplicated and sorted ascending (`sorted(set(values))`). -/
def parseThresholds (tokens : List (Option ℤ)) : List ℤ :=
  ((tokens.filterMap id).filter (fun v => 0 < v)).eraseDups.insertionSort (· ≤ ·)

/-- The threshold loop of `ClusteringAnalyzer._determine_target_count`
(clustering.py, lines 91-96): `count` starts at `min_count`; at the
first threshold `t` with `item_count ≤ t` return `min count max_count`,
otherwise increment `count`; exhausting all thresholds returns
`max_count`. -/
def targetCountLoop (maxCount : ℤ) : ℤ → List ℤ → ℤ → ℤ
  | _, [], _ => maxCount
  | count, t :: rest, itemCount =>
    if itemCount ≤ t then min count maxCount
    else targetCountLoop maxCount (count + 1) rest itemCount

/-- `ClusteringAnalyzer._determine_target_count` (clustering.py, lines
82-96), with the settings inlined as arguments: `min_count = max(1,
opinion_count_min)`, `max_count = max(min_count, opinion_count_max)`,
thresholds parsed by `_parse_thresholds`. -/
def determineTargetCount (opinionCountMin opinionCountMax : ℤ)
    (thresholdTokens : List (Option ℤ)) (itemCount : ℤ) : ℤ :=
  let minCount := max 1 opinionCountMin
  let maxCount := max minCount opinionCountMax
  let thresholds := parseThresholds thresholdTokens
  if thresholds = [] then max minCount (min maxCount 3)
  else targetCountLoop maxCount minCount thresholds itemCount

/-! ## SentimentAnalyzer.calculate_weighted_score (app/analyzers/sentiment.py) -/

/-- Python's built-in `round` on an exact value: round half to even. -/
def pyRound (q : ℚ) : ℤ :=
  if q - ⌊q⌋ < 1/2 then ⌊q⌋
  else if 1/2 < q - ⌊q⌋ then ⌊q⌋ + 1
  else if ⌊q⌋ % 2 = 0 then ⌊q⌋ else ⌊q⌋ + 1

/-- One entry of the sentiment-result list, restricted to the two
fields `calculate_weighted_score` reads (`r["score"]`,
`r.get("engagement", 0)`). -/
structure SentimentResult where
  score : ℤ
  engagement : ℤ
  deriving DecidableEq, Repr

/-- `SentimentAnalyzer.calculate_weighted_score` (sentiment.py, lines
86-98).  `weight = max(1, engagement // 10 + 1)` with Python floor
division; the final division is exact-rational here, rounded half to
even as Python's `round` does. -/
def calculateWeightedScore (results : List SentimentResult) : ℤ :=
  match results with
  | [] => 50
  | _ =>
    let weights : List ℤ := results.map (fun r => max 1 (r.engagement.fdiv 10 + 1))
    let weightedSum : ℤ := (results.map
      (fun r => r.score * max 1 (r.engagement.fdiv 10 + 1))).sum
    let totalWeight : ℤ := weights.sum
    if 0 < totalWeight then pyRound ((weightedSum : ℚ) / (totalWeight : ℚ))
    else 50

/-! ## Python string primitives

Lean's `String` is a structure holding a `List Char`; we implement the
Python string operations the analyzers use directly on that list so
that everything reduces in the kernel.  `str.strip()`/`rstrip()` strip
ASCII whitespace (the repository's strings never contain the extra
Unicode whitespace Python would also strip), `str.splitlines()` splits
at newlines (the validated strings are `"\n"`-joined). -/

/-- The whitespace characters relevant to the repository's strings. -/
def wsChar (c : Char) : Bool := c = ' ' || c = '\t' || c = '\r' || c = '\n'

/-- Python `str.strip()`. -/
def pyStrip (s : String) : String :=
  ⟨((s.data.dropWhile wsChar).reverse.dropWhile wsChar).reverse⟩

/-- Python `str.rstrip()`. -/
def pyRstrip (s : String) : String := ⟨(s.data.reverse.dropWhile wsChar).reverse⟩

/-- Python `str.startswith(pre)`. -/
def pyStartsWith (s pre : String) : Bool := pre.data.isPrefixOf s.data

/-- Split a character list at a separator (every occurrence, keeping
empty pieces, as Python `str.split(sep)` does). -/
def splitCharsAux (sep : Char) : List Char → List Char → List (List Char)
  | [], acc => [acc.reverse]
  | c :: rest, acc =>
    if c = sep then acc.reverse :: splitCharsAux sep rest []
    else splitCharsAux sep rest (c :: acc)

/-- Python `str.splitlines()` for `"\n"`-separated text (Python also
drops a trailing empty piece; the validator filters blank lines away
immediately afterwards, so we keep the simple split). -/
def pySplitlines (s : String) : List String :=
  (splitCharsAux '\n' s.data []).map String.mk

/-! ## validate_mermaid_output (app/analyzers/llm_validators.py) -/

/-- `lines = [line.rstrip() for line in code.splitlines() if
line.strip()]` (llm_validators.py, line 79). -/
def mermaidLines (code : String) : List String :=
  ((pySplitlines code).filter (fun l => pyStrip l ≠ "")).map pyRstrip

/-- Root-declaration lines (llm_validators.py, line 84): indented at
least two spaces and starting, once stripped, with `root((`. -/
def mermaidRootLines (code : String) : List String :=
  (mermaidLines code).filter
    (fun l => pyStartsWith l "  " && pyStartsWith (pyStrip l) "root((")

/-- Sentiment-branch lines (llm_validators.py, line 88): indented at
least four spaces and exactly `Sentiment` once stripped. -/
def mermaidSentimentLines (code : String) : List String :=
  (mermaidLines code).filter
    (fun l => pyStartsWith l "    " && pyStrip l = "Sentiment")

/-- Label-indented lines (llm_validators.py, lines 92-95): indented at
least six spaces and not a root declaration — note the code imposes no
requirement that such a line sit beneath the `Sentiment` branch. -/
def mermaidLabelLines (code : String) : List String :=
  (mermaidLines code).filter
    (fun l => pyStartsWith l "      " && !pyStartsWith (pyStrip l) "root((")

/-- Opinion-branch labels (llm_validators.py, lines 99-104): stripped
text of the lines indented at least four but not six spaces, excluding
the `Sentiment` branch itself. -/
def mermaidOpinionLabels (code : String) : List String :=
  (((mermaidLines code).filter
    (fun l => pyStartsWith l "    " && !pyStartsWith l "      ")).map
      (fun l => pyStrip l)).filter (fun label => label ≠ "Sentiment")

/-- `validate_mermaid_output` (llm_validators.py, lines 76-107).  The
`isinstance(code, str)` guard is vacuous in the typed embedding. -/
def validateMermaidOutput (code : String) : Bool × String :=
  if mermaidLines code = [] then (false, "Mermaid output is empty.")
  else if pyStrip ((mermaidLines code).headI) ≠ "mindmap" then
    (false, "First line must be \"mindmap\".")
  else if (mermaidRootLines code).length ≠ 1 then
    (false, "Expected exactly one root node \"root((keyword))\".")
  else if (mermaidSentimentLines code).length ≠ 1 then
    (false, "Expected a \"Sentiment\" branch under root.")
  else if mermaidLabelLines code = [] then
    (false, "Expected a sentiment label under \"Sentiment\".")
  else if (mermaidOpinionLabels code).length < 2 then
    (false, "Expected at least 2 opinion branches under root.")
  else (true, "")

/-! ## Data model (app/collectors/base.py `CollectedItem`)

`metrics` is a string-keyed map of numbers; the pipeline reads only the
four keys below with `metrics.get(key, 0)`, so the embedding stores
those four values directly (an absent key is the value `0`). -/

/-- The four engagement metrics the analyzers read. -/
structure Metrics where
  upvotes : ℤ
  likes : ℤ
  views : ℤ
  numComments : ℤ
  deriving DecidableEq, Repr

/-- `CollectedItem`, restricted to the fields the analysis pipeline
reads.  `title`/`content`/`author` are `Option String` because the
collectors may leave them `None`. -/
structure CollectedItem where
  platform : String
  sourceId : String
  title : Option String
  content : Option String
  author : Option String
  metrics : Metrics
  publishedAt : Option ℝ

instance : Inhabited CollectedItem :=
  ⟨⟨"", "", none, none, none, ⟨0, 0, 0, 0⟩, none⟩⟩

/-- Python `a or b` on an optional string: `None` and `""` are falsy. -/
def pyStrOr (a : Option String) (b : String) : String :=
  match a with
  | some s => if s = "" then b else s
  | none => b

/-- `item.content or item.title or ""` as used by the preprocessor and
the sentiment analyzer. -/
def itemText (item : CollectedItem) : String :=
  pyStrOr item.content (pyStrOr item.title "")

/-! ## DataPreprocessor (app/analyzers/preprocessor.py)

The two compiled regexes (`ad_regex`, `bot_regex`) and `langdetect`'s
`detect` are external to the reasoning here: they are carried as opaque
predicates in the configuration, and every theorem quantifies over
them.  `detect` returns `none` when `langdetect` raises
`LangDetectException` (the fail-open path). -/

/-- The `DataPreprocessor` construction parameters plus its two
compiled regexes and the language detector. -/
structure PreprocConfig where
  minLength : ℕ
  maxLength : ℕ
  targetLanguage : String
  filterAds : Bool
  filterBots : Bool
  adMatch : String → Bool
  botMatch : String → Bool
  detect : String → Option String

/-- `DataPreprocessor._is_valid` (preprocessor.py, lines 54-77). -/
def isValid (cfg : PreprocConfig) (item : CollectedItem) : Bool :=
  let text := itemText item
  if text.length < cfg.minLength || cfg.maxLength < text.length then false
  else if cfg.filterBots &&
      (match item.author with
       | some a => a ≠ "" && cfg.botMatch a
       | none => false) then false
  else if cfg.filterAds && cfg.adMatch text then false
  else if 50 < text.length then
    match cfg.detect text with
    | some lang =>
      if cfg.targetLanguage = "en" && lang ≠ "en" then false
      else if cfg.targetLanguage = "zh" &&
          !(lang = "zh-cn" || lang = "zh-tw" || lang = "zh") then false
      else true
    | none => true
  else true

/-- `DataPreprocessor._get_engagement_score` (preprocessor.py, lines
79-83): `upvotes + num_comments*2 + views//1000 + likes*10`. -/
def engagementScore (item : CollectedItem) : ℤ :=
  item.metrics.upvotes + item.metrics.numComments * 2
    + (item.metrics.views).fdiv 1000 + item.metrics.likes * 10

/-- The filtering/dedup loop of `DataPreprocessor.preprocess`
(preprocessor.py, lines 42-49): skip an item whose `source_id` was
already retained, skip invalid items, otherwise record the `source_id`
and keep the item.  Note the `seen_ids` key is `item.source_id` alone,
not the `(platform, source_id)` pair. -/
def preprocessLoop (cfg : PreprocConfig) : List String → List CollectedItem →
    List CollectedItem
  | _, [] => []
  | seen, item :: rest =>
    if item.sourceId ∈ seen then preprocessLoop cfg seen rest
    else if !isValid cfg item then preprocessLoop cfg seen rest
    else item :: preprocessLoop cfg (item.sourceId :: seen) rest

/-- `DataPreprocessor.preprocess` (preprocessor.py, lines 38-52): the
dedup/validity loop followed by a stable sort on `engagement_score`
descending (`list.sort(key=..., reverse=True)`). -/
def preprocess (cfg : PreprocConfig) (items : List CollectedItem) :
    List CollectedItem :=
  (preprocessLoop cfg [] items).insertionSort
    (fun a b => engagementScore b ≤ engagementScore a)

/-- A concrete preprocessor configuration for evaluating the embedding:
the default lengths with regexes that match nothing and a detector that
always raises (both fail-open paths). -/
def fixturePreprocConfig : PreprocConfig :=
  ⟨10, 5000, "en", true, true, fun _ => false, fun _ => false, fun _ => none⟩

/-- A concrete valid item on platform `reddit` with `source_id = "a"`. -/
def fixtureItemRedditA : CollectedItem :=
  ⟨"reddit", "a", none, some "hello world item", none, ⟨0, 0, 0, 0⟩, none⟩

/-- A concrete valid item on platform `youtube` with the same
`source_id = "a"`. -/
def fixtureItemYoutubeA : CollectedItem :=
  ⟨"youtube", "a", none, some "another text body", none, ⟨3, 0, 0, 0⟩, none⟩

/-! ## SentimentAnalyzer batches (app/analyzers/sentiment.py)

The oracle's JSON responses are modelled at the granularity the code
reads them: a response is a dict whose `"scores"` value, when present
and a list, holds entries that are either dicts (`some entry`) or
not (`none`); an entry's `"index"`, `"score"` and `"key_phrases"`
values are present or absent (`Option`), with the well-typed values the
validator ultimately enforces.  A root that is not a dict, or a
`"scores"` value that is not a list, is `scores = none` (both are
rejected by the validator and replaced by `[]` in the assembly). -/

/-- One element of the response's `"scores"` list when it is a dict. -/
structure ScoreEntry where
  index : Option ℤ
  score : Option ℤ
  keyPhrases : Option (List String)
  deriving DecidableEq, Repr

/-- A parsed sentiment response. -/
structure SentimentResponse where
  scores : Option (List (Option ScoreEntry))
  deriving DecidableEq, Repr

/-- `validate_sentiment_response` (llm_validators.py, lines 6-31). -/
def validateSentimentResponse (data : SentimentResponse) (expectedCount : ℕ) :
    Bool × String :=
  match data.scores with
  | none => (false, "\"scores\" must be a list.")
  | some scores =>
    if scores.length ≠ expectedCount then
      (false, "\"scores\" must contain exactly the expected number of items.")
    else validateScoreEntries scores 1
where
  /-- The per-entry loop (`for i, item in enumerate(scores, start=1)`). -/
  validateScoreEntries : List (Option ScoreEntry) → ℕ → Bool × String
    | [], _ => (true, "")
    | none :: _, _ => (false, "Item must be an object.")
    | some e :: rest, i =>
      if e.index ≠ some (i : ℤ) then (false, "Item must have matching index.")
      else
        match e.score with
        | none => (false, "Item must have integer score in range.")
        | some s =>
          if s < 0 || 100 < s then (false, "Item must have integer score in range.")
          else
            match e.keyPhrases with
            | none => (false, "Item must have key_phrases list.")
            | some phrases =>
              if 3 < phrases.length then (false, "Item has too many key phrases.")
              else validateScoreEntries rest (i + 1)

/-- The `index_map` construction of `_analyze_single_batch`
(sentiment.py, lines 58-64): iterate the entries in order, keeping for
each integer `"index"` the last dict that carried it. -/
def indexMapLookup (scoresData : List (Option ScoreEntry)) (i : ℤ) :
    Option ScoreEntry :=
  (scoresData.filterMap id).foldl
    (fun acc e => if e.index = some i then some e else acc) none

/-- The per-item `score_info` resolution of `_analyze_single_batch`
(sentiment.py, lines 68-73): the `index_map` entry for the item's
1-based index, else the positional entry when it exists and is a dict,
else the empty dict. -/
def resolveEntry (scoresData : List (Option ScoreEntry)) (idx : ℕ) : ScoreEntry :=
  match indexMapLookup scoresData (idx : ℤ) with
  | some e => e
  | none =>
    if idx - 1 < scoresData.length then
      match scoresData.getD (idx - 1) none with
      | some e => e
      | none => ⟨none, none, none⟩
    else ⟨none, none, none⟩

/-- One element of the list `_analyze_single_batch` returns. -/
structure SentimentBatchResult where
  sourceId : String
  score : ℤ
  keyPhrases : List String
  platform : String
  engagement : ℤ
  deriving DecidableEq, Repr

/-- The success-path result assembly of `_analyze_single_batch`
(sentiment.py, lines 66-81): one result per input item, in order,
with `score_info.get("score", 50)` and
`score_info.get("key_phrases", [])` defaults and the item's own
`source_id`, `platform` and `upvotes + likes` engagement. -/
def buildBatchResults (items : List CollectedItem)
    (scoresData : List (Option ScoreEntry)) : List SentimentBatchResult :=
  items.enum.map (fun p =>
    let e := resolveEntry scoresData (p.1 + 1)
    { sourceId := p.2.sourceId
      score := e.score.getD 50
      keyPhrases := e.keyPhrases.getD []
      platform := p.2.platform
      engagement := p.2.metrics.upvotes + p.2.metrics.likes })

/-- The fallback list of the `except` branch (sentiment.py, line 84). -/
def fallbackBatchResults (items : List CollectedItem) :
    List SentimentBatchResult :=
  items.map (fun item =>
    { sourceId := item.sourceId
      score := 50
      keyPhrases := []
      platform := item.platform
      engagement := 0 })

/-- What the oracle does for one batch: either some call raised
(`providerError`, the transport/timeout/auth case) or the two chat
responses exist with the given `_safe_json_loads` outcomes. -/
inductive OracleOutcome where
  | providerError
  | responses (firstParsed : Option SentimentResponse)
      (repairParsed : Option SentimentResponse) (repairErr : String)

/-- `SentimentAnalyzer._analyze_single_batch` (sentiment.py, lines
36-84): run the repair protocol with
`validate_sentiment_response (·, len(texts))` (and `len(texts) =
len(items)`), assemble per-item results on success, fall back to
all-defaults on any exception. -/
def analyzeSingleBatch (items : List CollectedItem) (oracle : OracleOutcome) :
    List SentimentBatchResult :=
  match oracle with
  | .providerError => fallbackBatchResults items
  | .responses firstParsed repairParsed repairErr =>
    match (analyzeJsonWithRepair
        (fun data => validateSentimentResponse data items.length)
        firstParsed repairParsed repairErr).result with
    | .ok response => buildBatchResults items (response.scores.getD [])
    | .failure _ => fallbackBatchResults items

/-- The batching of `analyze_batch` (sentiment.py, lines 29-32):
`items[i : i + batch_size]` for `i = 0, batch_size, …`.  A zero batch
size is a Python `ValueError`; the embedding returns `[]` there and the
theorems assume `1 ≤ batchSize`. -/
def batchChunks {α : Type} (batchSize : ℕ) (l : List α) : List (List α) :=
  if h : batchSize = 0 then []
  else
    match l with
    | [] => []
    | x :: rest =>
      (x :: rest).take batchSize :: batchChunks batchSize ((x :: rest).drop batchSize)
termination_by l.length
decreasing_by
  have h1 : 0 < batchSize := Nat.pos_of_ne_zero h
  simpa using Nat.sub_lt (Nat.succ_pos rest.length) h1

/-- `SentimentAnalyzer.analyze_batch` (sentiment.py, lines 21-34):
process the chunks in order (the `b`-th chunk against the oracle's
behaviour for the `b`-th extraction) and concatenate. -/
def analyzeBatch (batchSize : ℕ) (items : List CollectedItem)
    (oracles : ℕ → OracleOutcome) : List SentimentBatchResult :=
  ((batchChunks batchSize items).enum.map
    (fun p => analyzeSingleBatch p.2 (oracles p.1))).flatten

/-! ## Per-platform bounded top-K retention (app/workers/analyze_tasks.py)

`analyze_task` keeps one `heapq` min-heap per platform holding
`(score, counter, item)` tuples with capacity
`semantic_sampling_max_items`.  The heap is modelled by its contents as
a list sorted in the heap's comparison order: lexicographic on
`(score, counter)` — the `item` component is never compared because
`counter` is unique.  `heapq.heappush` is an ordered insert,
`heap[0]` is the head, and `heapq.heapreplace` drops the head and
inserts. -/

/-- The heap comparison order on `(score, counter)`. -/
def heapLe (a b : ℤ × ℕ) : Prop := a.1 < b.1 ∨ (a.1 = b.1 ∧ a.2 ≤ b.2)

instance : DecidableRel heapLe := fun a b => by
  unfold heapLe; infer_instance

instance : IsTotal (ℤ × ℕ) heapLe :=
  ⟨fun a b => by unfold heapLe; omega⟩

instance : IsTrans (ℤ × ℕ) heapLe :=
  ⟨fun a b c hab hbc => by unfold heapLe at *; omega⟩

/-- One streaming step of the candidate-heap loop (analyze_tasks.py,
lines 89-93): push while below capacity, otherwise replace the heap
minimum only when the new score is strictly greater, else discard the
incoming item.  Returns the new heap and the discarded entry, if any.
(The `[]`-at-capacity case is Python's `heap[0]` `IndexError`; it is
unreachable for capacity ≥ 1.) -/
def boundedStep (capacity : ℕ) (heap : List (ℤ × ℕ)) (score : ℤ) (seq : ℕ) :
    List (ℤ × ℕ) × Option (ℤ × ℕ) :=
  if heap.length < capacity then
    (List.orderedInsert heapLe (score, seq) heap, none)
  else
    match heap with
    | [] => ([], some (score, seq))
    | m :: rest =>
      if m.1 < score then (List.orderedInsert heapLe (score, seq) rest, some m)
      else (m :: rest, some (score, seq))

/-- A record of one step of the streaming loop, for stating invariants
about what was discarded while the retained set stood where it did. -/
structure StepRecord where
  score : ℤ
  seq : ℕ
  heapBefore : List (ℤ × ℕ)
  heapAfter : List (ℤ × ℕ)
  discarded : Option (ℤ × ℕ)

/-- Run the bounded-selection loop over a stream of scores for one
group, numbering items by arrival; returns the final heap and the full
step trace. -/
def runBoundedAux (capacity : ℕ) : List (ℤ × ℕ) → ℕ → List ℤ →
    List (ℤ × ℕ) × List StepRecord
  | heap, _, [] => (heap, [])
  | heap, seq, s :: rest =>
    let step := boundedStep capacity heap s seq
    let next := runBoundedAux capacity step.1 (seq + 1) rest
    (next.1, ⟨s, seq, heap, step.1, step.2⟩ :: next.2)

/-- The per-group bounded selection applied to a whole stream. -/
def runBounded (capacity : ℕ) (scores : List ℤ) :
    List (ℤ × ℕ) × List StepRecord :=
  runBoundedAux capacity [] 1 scores

/-! ## Heat scoring (app/workers/analyze_tasks.py) -/

/-- The decay constant: `math.log(2) / half_life_hours` with the 24h
half-life fixed at both call sites (analyze_tasks.py, lines 47-48). -/
noncomputable def decayLambda : ℝ := Real.log 2 / 24

/-- `age_hours = max(0.0, (now - published_at).total_seconds() / 3600)`
with timestamps carried directly in hours. -/
noncomputable def ageHours (now publishedAt : ℝ) : ℝ := max 0 (now - publishedAt)

/-- `_weighted_engagement_from_metrics` (analyze_tasks.py, lines
241-261): `base = upvotes + likes + views//100 + num_comments*5`
(integer floor division), decayed by `exp(-λ · age_hours)` when a
timestamp is present, undecayed otherwise. -/
noncomputable def weightedEngagementFromMetrics (m : Metrics)
    (publishedAt : Option ℝ) (now : ℝ) (lam : ℝ) : ℝ :=
  let base : ℤ := m.upvotes + m.likes + m.views.fdiv 100 + m.numComments * 5
  match publishedAt with
  | some p => (base : ℝ) * Real.exp (-(lam * ageHours now p))
  | none => (base : ℝ) * 1

/-- Round half to even on a real value (Python's `round`). -/
noncomputable def realRoundHalfEven (x : ℝ) : ℤ :=
  if x - ⌊x⌋ < 1/2 then ⌊x⌋
  else if 1/2 < x - ⌊x⌋ then ⌊x⌋ + 1
  else if ⌊x⌋ % 2 = 0 then ⌊x⌋ else ⌊x⌋ + 1

/-- Python `round(x, 2)`. -/
noncomputable def round2 (x : ℝ) : ℝ := (realRoundHalfEven (100 * x) : ℝ) / 100

/-- `_calculate_heat_index_from_stats` (analyze_tasks.py, lines
264-298).  Python's `int(len * 0.9)` float truncation is modelled as
the exact floor (`len * 0.9 ≥ 0`, and no claim depends on the
percentile index). -/
noncomputable def calcHeatIndexFromStats (engagements : List ℝ)
    (totalEngagement : ℝ) (totalItems : ℕ) (platformCount : ℕ)
    (expectedCount : ℕ) (expectedPlatformsLen : ℕ) : ℝ :=
  match engagements with
  | [] => 0
  | _ =>
    let avg := totalEngagement / (max totalItems 1 : ℕ)
    let sorted := engagements.insertionSort (· ≤ ·)
    let p90Index : ℕ := (max 0 (⌊(sorted.length : ℝ) * (9/10)⌋ - 1)).toNat
    let p90 := sorted.getD p90Index 0
    let scale := Real.log (1 + 1000000)
    let engScore := (Real.log (1 + max avg 0) / scale) * 70
      + (Real.log (1 + max p90 0) / scale) * 30
    let volumeRatio : ℝ :=
      if expectedCount ≠ 0 then (totalItems : ℝ) / (max expectedCount 1 : ℕ)
      else 1
    let volumeScore := min 1 volumeRatio * 100
    let platformRatio : ℝ :=
      if expectedPlatformsLen ≠ 0 then
        (platformCount : ℝ) / (max expectedPlatformsLen 1 : ℕ)
      else 1
    let platformScore := min 1 platformRatio * 100
    let heat := 0.6 * min 100 engScore + 0.25 * volumeScore + 0.15 * platformScore
    round2 (min 100 heat)

/-! ## The analyze_task orchestration (app/workers/analyze_tasks.py)

The task body streams the run's raw rows once, accumulating totals,
platform statistics, decayed engagements and the per-platform bounded
candidate heaps, then either fails fast (`total == 0` → "No data
collected"; no valid candidates → "No valid data for analysis") or
hands the retained items to `_run_analysis` — the only place oracle and
embedding calls happen — and finally writes the `AnalysisResult` row.
`_run_analysis` (and the database session) are external to this model:
it is an arbitrary function returning its oracle/embedding call counts
and either a payload or `none` (an exception, which the task's `except`
branch turns into a failure without writing a record). -/

/-- One `RawData` row, restricted to the fields `analyze_task` reads. -/
structure RawRow where
  platform : String
  contentType : String
  sourceId : String
  title : Option String
  content : Option String
  author : Option String
  metrics : Metrics
  publishedAt : Option ℝ

/-- Effects of a `_run_analysis` invocation. -/
structure AnalysisEffects where
  oracleCalls : ℕ
  embeddingCalls : ℕ

/-- The payload `_run_analysis` returns on success (sentiment score,
opinions, summary, diagram code). -/
structure AnalysisPayload where
  sentimentScore : ℤ
  keyOpinionsCount : ℕ
  summary : String
  mermaidCode : String

/-- Task status as written back to the `tasks` row. -/
inductive ModelTaskStatus where
  | completed
  | failed
  deriving DecidableEq, Repr

/-- What one `analyze_task` run did, as observable from outside:
final task status and error message, how many oracle/embedding calls
were made, and whether an `AnalysisResult` record was written. -/
structure TaskOutcome where
  status : ModelTaskStatus
  errorMessage : Option String
  oracleCalls : ℕ
  embeddingCalls : ℕ
  recordWritten : Bool

/-- State accumulated by the raw-row loop of `analyze_task`
(analyze_tasks.py, lines 41-93). -/
structure LoopState where
  total : ℕ
  platformOrder : List String
  engagements : List ℝ
  totalEngagement : ℝ
  heaps : String → List (ℤ × ℕ × CollectedItem)
  counter : ℕ

/-- Ordered insert into a per-platform heap of `(score, counter, item)`
tuples, compared on `(score, counter)` as `heapq` does (the unique
counter makes the item component irrelevant to the order). -/
def heapInsertItem (e : ℤ × ℕ × CollectedItem) :
    List (ℤ × ℕ × CollectedItem) → List (ℤ × ℕ × CollectedItem)
  | [] => [e]
  | f :: rest =>
    if heapLe (e.1, e.2.1) (f.1, f.2.1) then e :: f :: rest
    else f :: heapInsertItem e rest

/-- One iteration of the raw-row loop: count the row, record its
platform and decayed engagement, and — when the row passes
`_is_valid` — push `(engagement_score, counter, item)` into its
platform's bounded heap (replace the minimum only on strictly greater
score). -/
noncomputable def analyzeTaskStep (cfg : PreprocConfig) (capacity : ℕ) (now : ℝ)
    (st : LoopState) (r : RawRow) : LoopState :=
  let w := weightedEngagementFromMetrics r.metrics r.publishedAt now decayLambda
  let item : CollectedItem :=
    { platform := r.platform, sourceId := r.sourceId, title := r.title
      content := r.content, author := r.author, metrics := r.metrics
      publishedAt := r.publishedAt }
  let st :=
    { st with
      total := st.total + 1
      platformOrder :=
        if r.platform ∈ st.platformOrder then st.platformOrder
        else st.platformOrder ++ [r.platform]
      engagements := st.engagements ++ [w]
      totalEngagement := st.totalEngagement + w }
  if !isValid cfg item then st
  else
    let score := engagementScore item
    let heap := st.heaps r.platform
    let counter := st.counter + 1
    let heap' :=
      if heap.length < capacity then heapInsertItem (score, counter, item) heap
      else
        match heap with
        | [] => []
        | m :: rest =>
          if m.1 < score then heapInsertItem (score, counter, item) rest
          else m :: rest
    { st with counter := counter, heaps := Function.update st.heaps r.platform heap' }

/-- `analyze_task` (analyze_tasks.py, lines 24-178), with the database
row stream as the input list and `_run_analysis` abstracted as
`runAnalysis`.  The heat index and platform distribution computed after
the analysis do not affect the observable outcome fields and are
omitted from `TaskOutcome`. -/
noncomputable def analyzeTask (cfg : PreprocConfig) (capacity : ℕ) (now : ℝ)
    (runAnalysis : List CollectedItem → AnalysisEffects × Option AnalysisPayload)
    (raws : List RawRow) : TaskOutcome :=
  let st := raws.foldl (analyzeTaskStep cfg capacity now)
    ⟨0, [], [], 0, fun _ => [], 0⟩
  if st.total = 0 then
    { status := .failed, errorMessage := some "No data collected"
      oracleCalls := 0, embeddingCalls := 0, recordWritten := false }
  else
    let items := (st.platformOrder.map
      (fun p => (st.heaps p).map (fun e => e.2.2))).flatten
    if items.isEmpty then
      { status := .failed, errorMessage := some "No valid data for analysis"
        oracleCalls := 0, embeddingCalls := 0, recordWritten := false }
    else
      let run := runAnalysis items
      match run.2 with
      | some _ =>
        { status := .completed, errorMessage := none
          oracleCalls := run.1.oracleCalls, embeddingCalls := run.1.embeddingCalls
          recordWritten := true }
      | none =>
        { status := .failed, errorMessage := some "analysis error"
          oracleCalls := run.1.oracleCalls, embeddingCalls := run.1.embeddingCalls
          recordWritten := false }

/-! ## EmbeddingSampler (app/analyzers/embedding_sampler.py)

The sentence-transformer (`_encode`) and `sklearn`'s
`KMeans.fit_predict` are external: the encoder is a function from the
texts to either a list of embedding vectors or `None` (provider
failure), and K-means is a function producing the per-point labels and
the cluster-center matrix, both quantified over in the theorems.
Vectors are `List ℝ`; the centroid renormalisation and the
`1 − cosine` distances (lines 92-93) are computed from them exactly as
the `numpy` expressions do.  `np.argsort` and Python `sorted(...,
key=...)` are modelled as stable ascending sorts by the key (ties in
`np.argsort`'s unstable order cannot affect any claim proved here).
Python's float `round` / `int` in the quota and outlier counts are the
exact half-even rounding / floor of the rational value. -/

/-- Sampler configuration after the `__init__` clamps. -/
structure SamplerConfig where
  maxItems : ℕ
  targetCount : ℕ
  kMin : ℕ
  kMax : ℕ
  outlierRatio : ℚ
  batchSize : ℕ
  textMaxLength : ℕ

/-- The `EmbeddingSampler.__init__` clamps (embedding_sampler.py, lines
33-39): `max(1, max_items)`, `max(1, target_count)`, `max(1, k_min)`,
`max(k_min, k_max)`, `max(0.0, min(outlier_ratio, 0.5))`,
`max(1, batch_size)`, `max(50, text_max_length)`. -/
def mkSamplerConfig (maxItems targetCount kMin kMax : ℤ) (outlierRatio : ℚ)
    (batchSize textMaxLength : ℤ) : SamplerConfig :=
  { maxItems := (max 1 maxItems).toNat
    targetCount := (max 1 targetCount).toNat
    kMin := (max 1 kMin).toNat
    kMax := (max (max 1 kMin) kMax).toNat
    outlierRatio := max 0 (min outlierRatio (1/2))
    batchSize := (max 1 batchSize).toNat
    textMaxLength := (max 50 textMaxLength).toNat }

/-- Splitting worker for Python `str.split()` (no argument): break at
every whitespace character. -/
def splitWsAux : List Char → List Char → List (List Char)
  | [], acc => [acc.reverse]
  | c :: rest, acc =>
    if wsChar c then acc.reverse :: splitWsAux rest []
    else splitWsAux rest (c :: acc)

/-- Split a character list on whitespace runs (Python `str.split()`),
dropping empty fragments. -/
def splitWsChars (l : List Char) : List (List Char) :=
  (splitWsAux l []).filter (fun w => w ≠ [])

/-- `EmbeddingSampler._build_text` (embedding_sampler.py, lines 62-67):
content-or-title, newlines to spaces, whitespace collapsed by
`" ".join(text.split())`, truncated to `text_max_length`. -/
def buildText (textMaxLength : ℕ) (item : CollectedItem) : String :=
  let text := itemText item
  let chars := text.data.map (fun c => if c = '\n' || c = '\r' then ' ' else c)
  let collapsed := String.intercalate " " ((splitWsChars chars).map String.mk)
  if textMaxLength < collapsed.length then ⟨collapsed.data.take textMaxLength⟩
  else collapsed

/-- The greedy outlier collection (embedding_sampler.py, lines
123-128): walk the indices in descending-distance order, keep those not
already selected, stop once `count` are collected. -/
def pickOutliersAux (sel : Finset ℕ) (count : ℕ) :
    List ℕ → List ℕ → List ℕ
  | [], acc => acc.reverse
  | i :: rest, acc =>
    if i ∈ sel then pickOutliersAux sel count rest acc
    else
      let acc' := i :: acc
      if count ≤ acc'.length then acc'.reverse
      else pickOutliersAux sel count rest acc'

/-- The trimming loop (embedding_sampler.py, lines 131-136): while the
selection exceeds the target, remove the non-outlier candidates in
ascending-distance order. -/
def shrinkLoop (target : ℕ) : Finset ℕ → List ℕ → Finset ℕ
  | s, [] => s
  | s, c :: rest =>
    if target < s.card then shrinkLoop target (s.erase c) rest else s

/-- The back-fill loop (embedding_sampler.py, lines 138-143): while the
selection is short of the target, add unselected indices in
ascending-distance order. -/
def fillLoop (target : ℕ) : Finset ℕ → List ℕ → Finset ℕ
  | s, [] => s
  | s, i :: rest =>
    if s.card < target then
      if i ∈ s then fillLoop target s rest else fillLoop target (insert i s) rest
    else s

/-- The quota-decrement pass (embedding_sampler.py, lines 105-112): one
sweep over the clusters in descending-size order, decrementing quotas
above 1 until the total no longer exceeds the target. -/
def quotaDecrementLoop (target : ℕ) : List ℕ → (ℕ → ℕ) → ℕ → ((ℕ → ℕ) × ℕ)
  | [], d, td => (d, td)
  | l :: rest, d, td =>
    if td ≤ target then (d, td)
    else if 1 < d l then
      quotaDecrementLoop target rest (Function.update d l (d l - 1)) (td - 1)
    else quotaDecrementLoop target rest d td

/-- The members of cluster `l` (embedding_sampler.py, lines 95-97):
the indices `i < n` whose K-means label is `l`. -/
def clusterMembers (labels : List ℕ) (n l : ℕ) : List ℕ :=
  (List.range n).filter (fun i => labels.getD i 0 = l)

/-- The per-point distances (embedding_sampler.py, lines 91-93):
renormalise each cluster center to unit norm, then
`1 − ⟨embedding_i, center_of_cluster(i)⟩`. -/
noncomputable def distToCentroid (embeddings : List (List ℝ)) (labels : List ℕ)
    (centers : List (List ℝ)) (i : ℕ) : ℝ :=
  1 - (((embeddings.getD i []).zip
    ((centers.map (fun c =>
      c.map (fun x => x / Real.sqrt ((c.map (fun y => y ^ 2)).sum)))).getD
        (labels.getD i 0) [])).map (fun p => p.1 * p.2)).sum

/-- The initial per-cluster quota (embedding_sampler.py, lines
99-103): `max(1, round(target_count * size / n))`, exact-rational
half-even rounding for Python's float `round`. -/
def desired0 (labels : List ℕ) (n target l : ℕ) : ℕ :=
  max 1 (pyRound ((target * (clusterMembers labels n l).length : ℚ) /
    (n : ℚ))).toNat

/-- The adjusted quota map (embedding_sampler.py, lines 105-112): run
the single decrement sweep over the clusters sorted by size descending
(a stable sort, as Python's `sorted(..., reverse=True)`). -/
def desiredQuota (labels : List ℕ) (n target : ℕ) : ℕ → ℕ :=
  (quotaDecrementLoop target
    (labels.eraseDups.insertionSort (fun a b =>
      (clusterMembers labels n b).length ≤ (clusterMembers labels n a).length))
    (desired0 labels n target)
    ((labels.eraseDups.map (desired0 labels n target)).sum)).1

/-- The per-cluster prototype selection (embedding_sampler.py, lines
114-118): for each cluster, the `min(desired, size)` members closest to
the centroid, accumulated as a set. -/
noncomputable def coreSelection (dist : ℕ → ℝ) (labels : List ℕ)
    (n : ℕ) (desired : ℕ → ℕ) : Finset ℕ :=
  labels.eraseDups.foldl
    (fun acc l =>
      acc ∪ (((clusterMembers labels n l).insertionSort
        (fun i j => dist i ≤ dist j)).take
          (min (desired l) (clusterMembers labels n l).length)).toFinset) ∅

/-- `np.argsort(distances)` (ascending; stable on ties). -/
noncomputable def argsortAsc (dist : ℕ → ℝ) (n : ℕ) : List ℕ :=
  (List.range n).insertionSort (fun i j => dist i ≤ dist j)

/-- The outlier reservation (embedding_sampler.py, lines 120-129). -/
noncomputable def outlierPicks (dist : ℕ → ℝ) (n : ℕ) (selCore : Finset ℕ)
    (outlierCount : ℕ) : List ℕ :=
  if 0 < outlierCount then
    pickOutliersAux selCore outlierCount (argsortAsc dist n).reverse []
  else []

/-- Selection state after the trimming loop (embedding_sampler.py,
lines 131-136): non-outlier candidates are walked in ascending-distance
order (Python's arbitrary set-iteration order before the `sorted` call
is modelled as ascending index order; the subsequent stable distance
sort makes the walk deterministic). -/
noncomputable def afterShrink (target : ℕ) (dist : ℕ → ℝ) (n : ℕ)
    (selCore : Finset ℕ) (outlierCount : ℕ) : Finset ℕ :=
  shrinkLoop target
    (selCore ∪ (outlierPicks dist n selCore outlierCount).toFinset)
    ((((selCore ∪ (outlierPicks dist n selCore outlierCount).toFinset) \
        (outlierPicks dist n selCore outlierCount).toFinset).sort
          (· ≤ ·)).insertionSort (fun i j => dist i ≤ dist j))

/-- Selection state after the back-fill loop (embedding_sampler.py,
lines 138-143). -/
noncomputable def finalSelection (target : ℕ) (dist : ℕ → ℝ) (n : ℕ)
    (selCore : Finset ℕ) (outlierCount : ℕ) : Finset ℕ :=
  fillLoop target (afterShrink target dist n selCore outlierCount)
    (argsortAsc dist n)

/-- `EmbeddingSampler._cluster_and_select` (embedding_sampler.py, lines
79-145), with `KMeans(n_clusters=k, ...).fit_predict` and
`cluster_centers_` supplied by the external `kmeans` function
(`k = min(k_max, max(k_min, int(sqrt(n))))`).  The returned
`list(selected)[:target_count]` reads the selection set in ascending
index order (the caller sorts the indices again anyway). -/
noncomputable def clusterAndSelect (cfg : SamplerConfig)
    (kmeans : ℕ → List (List ℝ) → List ℕ × List (List ℝ))
    (embeddings : List (List ℝ)) (target : ℕ) : List ℕ :=
  if embeddings.length ≤ target then List.range embeddings.length
  else if embeddings.length ≤
      min cfg.kMax (max cfg.kMin (Nat.sqrt embeddings.length)) then
    List.range target
  else
    ((finalSelection target
      (distToCentroid embeddings
        (kmeans (min cfg.kMax (max cfg.kMin (Nat.sqrt embeddings.length)))
          embeddings).1
        (kmeans (min cfg.kMax (max cfg.kMin (Nat.sqrt embeddings.length)))
          embeddings).2)
      embeddings.length
      (coreSelection
        (distToCentroid embeddings
          (kmeans (min cfg.kMax (max cfg.kMin (Nat.sqrt embeddings.length)))
            embeddings).1
          (kmeans (min cfg.kMax (max cfg.kMin (Nat.sqrt embeddings.length)))
            embeddings).2)
        (kmeans (min cfg.kMax (max cfg.kMin (Nat.sqrt embeddings.length)))
          embeddings).1
        embeddings.length
        (desiredQuota
          (kmeans (min cfg.kMax (max cfg.kMin (Nat.sqrt embeddings.length)))
            embeddings).1
          embeddings.length target))
      (min (⌊(target : ℚ) * cfg.outlierRatio⌋.toNat) target)).sort
        (· ≤ ·)).take target

/-- `EmbeddingSampler.sample` (embedding_sampler.py, lines 41-60), with
the encoder's `_encode` outcome supplied by `encode` (`none` = provider
failure; `_encode` itself returns `None` on an empty text list). -/
noncomputable def sample (cfg : SamplerConfig)
    (encode : List String → Option (List (List ℝ)))
    (kmeans : ℕ → List (List ℝ) → List ℕ × List (List ℝ))
    (items : List CollectedItem) : List CollectedItem :=
  match items with
  | [] => []
  | _ =>
    let candidates := items.take cfg.maxItems
    let target := min cfg.targetCount candidates.length
    if candidates.length ≤ target then candidates
    else
      let texts := candidates.map (buildText cfg.textMaxLength)
      let embeddings := if texts.isEmpty then none else encode texts
      match embeddings with
      | none => candidates.take target
      | some embs =>
        if embs.length ≠ candidates.length then candidates.take target
        else
          let selectedIndices := clusterAndSelect cfg kmeans embs target
          if selectedIndices.isEmpty then candidates.take target
          else
            (selectedIndices.insertionSort (· ≤ ·)).map
              (fun i => candidates.getD i default)

/-! # Theorems -/

/-! ## Shared helper lemmas -/

theorem pyRound_intCast (n : ℤ) : pyRound (n : ℚ) = n := by
  simp [pyRound]

theorem targetCountLoop_ge_min (maxCount : ℤ) (ts : List ℤ) :
    ∀ count n, min count maxCount ≤ targetCountLoop maxCount count ts n := by
  induction ts with
  | nil => intro count n; simp [targetCountLoop]
  | cons t rest ih =>
    intro count n
    simp only [targetCountLoop]
    split
    · exact le_refl _
    · exact le_trans (by omega : min count maxCount ≤ min (count + 1) maxCount)
        (ih (count + 1) n)

theorem targetCountLoop_mono (maxCount : ℤ) (ts : List ℤ) :
    ∀ count n m, n ≤ m →
      targetCountLoop maxCount count ts n ≤ targetCountLoop maxCount count ts m := by
  induction ts with
  | nil => intro count n m _; simp [targetCountLoop]
  | cons t rest ih =>
    intro count n m hnm
    simp only [targetCountLoop]
    by_cases hm : m ≤ t
    · rw [if_pos (le_trans hnm hm), if_pos hm]
    · rw [if_neg hm]
      by_cases hn : n ≤ t
      · rw [if_pos hn]
        exact le_trans (by omega : min count maxCount ≤ min (count + 1) maxCount)
          (targetCountLoop_ge_min maxCount rest (count + 1) m)
      · rw [if_neg hn]; exact ih (count + 1) n m hnm

theorem cast_mul_div_cancel_right (a S : ℤ) (hS : S ≠ 0) :
    ((a * S : ℤ) : ℚ) / ((S : ℤ) : ℚ) = ((a : ℤ) : ℚ) := by
  have h : ((S : ℤ) : ℚ) ≠ 0 := by exact_mod_cast hS
  push_cast
  field_simp

theorem sum_ge_length_of_one_le (l : List ℤ) (h : ∀ x ∈ l, 1 ≤ x) :
    (l.length : ℤ) ≤ l.sum := by
  induction l with
  | nil => simp
  | cons x rest ih =>
    have hx := h x (List.mem_cons_self x rest)
    have hr := ih (fun y hy => h y (List.mem_cons_of_mem x hy))
    simp only [List.length_cons, List.sum_cons]
    push_cast
    omega

/-! ## Claim C1 -/

/-- C1: for every extraction request, `analyze_json_with_repair` makes
at most two oracle calls; when the first response parses and validates,
that payload is returned after exactly one call with no repair; when it
does not, exactly one repair call is made (two calls total) and the
extraction succeeds — returning the repair payload — iff the repair
response parses and validates, raising a typed failure otherwise. -/
theorem analyzeJsonWithRepair_protocol {α : Type} (validator : α → Bool × String)
    (firstParsed repairParsed : Option α) (repairErr : String) :
    (analyzeJsonWithRepair validator firstParsed repairParsed repairErr).oracleCalls ≤ 2
    ∧ (∀ d, firstParsed = some d → (validator d).1 = true →
        analyzeJsonWithRepair validator firstParsed repairParsed repairErr =
          ⟨.ok d, 1⟩)
    ∧ ((∀ d, firstParsed = some d → (validator d).1 = false) →
        (analyzeJsonWithRepair validator firstParsed repairParsed
            repairErr).oracleCalls = 2
        ∧ (∀ r, repairParsed = some r → (validator r).1 = true →
            (analyzeJsonWithRepair validator firstParsed repairParsed
              repairErr).result = .ok r)
        ∧ ((∃ p, (analyzeJsonWithRepair validator firstParsed repairParsed
              repairErr).result = .ok p)
            ↔ ∃ r, repairParsed = some r ∧ (validator r).1 = true)
        ∧ (¬ (∃ r, repairParsed = some r ∧ (validator r).1 = true) →
            ∃ msg, (analyzeJsonWithRepair validator firstParsed repairParsed
              repairErr).result = .failure msg)) := by
  cases firstParsed with
  | none =>
    cases repairParsed with
    | none =>
      simp [analyzeJsonWithRepair, analyzeJsonWithRepair.repairRound]
    | some r =>
      by_cases hr : (validator r).1 = true <;>
        simp [analyzeJsonWithRepair, analyzeJsonWithRepair.repairRound, hr]
  | some d =>
    by_cases hd : (validator d).1 = true
    · simp [analyzeJsonWithRepair, analyzeJsonWithRepair.repairRound, hd]
    · cases repairParsed with
      | none =>
        simp [analyzeJsonWithRepair, analyzeJsonWithRepair.repairRound, hd]
      | some r =>
        by_cases hr : (validator r).1 = true <;>
          simp [analyzeJsonWithRepair, analyzeJsonWithRepair.repairRound, hd, hr]

/-- Witness for C1 at a concrete instance: validator accepting exactly
`5`, first response parsing to `5` — one call, payload returned. -/
theorem analyzeJsonWithRepair_protocol_witness :
    analyzeJsonWithRepair (fun n : ℕ => (decide (n = 5), "bad"))
      (some 5) none "err" = ⟨.ok 5, 1⟩ :=
  (analyzeJsonWithRepair_protocol (fun n : ℕ => (decide (n = 5), "bad"))
    (some 5) none "err").2.1 5 rfl (by decide)

/-! ## Claim C3 -/

/-- C3: with thresholds `[12,24,36,48]`, `min_count = 2`,
`max_count = 6`, the planner returns 2/3/5/6 at N = 5/20/40/100; and
for any fixed (leniently parsed) thresholds, `min_count` and
`max_count`, the returned count is monotonically non-decreasing in N. -/
theorem determineTargetCount_spec :
    (determineTargetCount 2 6 [some 12, some 24, some 36, some 48] 5 = 2
      ∧ determineTargetCount 2 6 [some 12, some 24, some 36, some 48] 20 = 3
      ∧ determineTargetCount 2 6 [some 12, some 24, some 36, some 48] 40 = 5
      ∧ determineTargetCount 2 6 [some 12, some 24, some 36, some 48] 100 = 6)
    ∧ ∀ (opMin opMax : ℤ) (tokens : List (Option ℤ)) (n m : ℤ), n ≤ m →
        determineTargetCount opMin opMax tokens n ≤
          determineTargetCount opMin opMax tokens m := by
  refine ⟨⟨by decide, by decide, by decide, by decide⟩, ?_⟩
  intro opMin opMax tokens n m hnm
  by_cases hth : parseThresholds tokens = []
  · simp only [determineTargetCount, hth, if_pos]
    exact le_refl _
  · simp only [determineTargetCount, if_neg hth]
    exact targetCountLoop_mono _ _ _ n m hnm

/-- Witness for C3's monotonicity at a concrete pair `N = 5 ≤ 20`. -/
theorem determineTargetCount_spec_witness :
    determineTargetCount 2 6 [some 12, some 24, some 36, some 48] 5 ≤
      determineTargetCount 2 6 [some 12, some 24, some 36, some 48] 20 :=
  determineTargetCount_spec.2 2 6 [some 12, some 24, some 36, some 48] 5 20
    (by decide)

/-! ## Claim C7 -/

/-- C7: `calculate_weighted_score` returns 50 on the empty list;
returns 50 when every per-item score is 50; and under uniform
engagement the weights are equal and the result is the (half-even)
rounded arithmetic mean of the scores. -/
theorem calculateWeightedScore_spec :
    calculateWeightedScore [] = 50
    ∧ (∀ results, (∀ r ∈ results, r.score = 50) →
        calculateWeightedScore results = 50)
    ∧ (∀ (results : List SentimentResult) (e : ℤ), results ≠ [] →
        (∀ r ∈ results, r.engagement = e) →
        calculateWeightedScore results =
          pyRound ((((results.map (fun r => r.score)).sum : ℤ) : ℚ) /
            (results.length : ℚ))) := by
  refine ⟨rfl, ?_, ?_⟩
  · intro results hall
    match results with
    | [] => rfl
    | x :: rest =>
      have hw : ∀ r ∈ x :: rest,
          (1 : ℤ) ≤ max 1 (r.engagement.fdiv 10 + 1) := fun r _ => le_max_left _ _
      have hpos : (0 : ℤ) <
          ((x :: rest).map (fun r => max 1 (r.engagement.fdiv 10 + 1))).sum := by
        have := sum_ge_length_of_one_le
          ((x :: rest).map (fun r => max 1 (r.engagement.fdiv 10 + 1)))
          (by
            intro y hy
            obtain ⟨r, hr, rfl⟩ := List.mem_map.mp hy
            exact hw r hr)
        simp only [List.length_map] at this
        have hlen : (0 : ℤ) < ((x :: rest).length : ℤ) := by
          exact_mod_cast Nat.succ_pos rest.length
        omega
      have hsum : ((x :: rest).map
          (fun r => r.score * max 1 (r.engagement.fdiv 10 + 1))).sum =
          50 * ((x :: rest).map (fun r => max 1 (r.engagement.fdiv 10 + 1))).sum := by
        rw [← List.sum_map_mul_left]
        exact congrArg List.sum (List.map_congr_left (fun r hr => by
          rw [hall r hr]))
      simp only [calculateWeightedScore, hsum, if_pos hpos]
      rw [cast_mul_div_cancel_right 50 _ hpos.ne', pyRound_intCast]
  · intro results e hne hall
    match results, hne with
    | x :: rest, _ =>
      set w : ℤ := max 1 (e.fdiv 10 + 1) with hw
      have hw1 : (1 : ℤ) ≤ w := le_max_left _ _
      have hmapw : (x :: rest).map (fun r => max 1 (r.engagement.fdiv 10 + 1)) =
          (x :: rest).map (fun _ => w) :=
        List.map_congr_left (fun r hr => by rw [hall r hr])
      have hsumw : ((x :: rest).map (fun r => max 1 (r.engagement.fdiv 10 + 1))).sum =
          ((x :: rest).length : ℤ) * w := by
        rw [hmapw, List.map_const']
        simp [List.sum_replicate, nsmul_eq_mul]
      have hsumsw : ((x :: rest).map
          (fun r => r.score * max 1 (r.engagement.fdiv 10 + 1))).sum =
          ((x :: rest).map (fun r => r.score)).sum * w := by
        rw [← List.sum_map_mul_right]
        exact congrArg List.sum (List.map_congr_left (fun r hr => by
          rw [hall r hr]))
      have hlen : (0 : ℤ) < ((x :: rest).length : ℤ) := by
        exact_mod_cast Nat.succ_pos rest.length
      have hpos : (0 : ℤ) < ((x :: rest).length : ℤ) * w :=
        mul_pos hlen (by omega)
      have key : ((((x :: rest).map (fun r => r.score)).sum * w : ℤ) : ℚ) /
          ((((x :: rest).length : ℤ) * w : ℤ) : ℚ) =
          ((((x :: rest).map (fun r => r.score)).sum : ℤ) : ℚ) /
            (((x :: rest).length : ℕ) : ℚ) := by
        have hw0 : ((w : ℤ) : ℚ) ≠ 0 := by exact_mod_cast (by omega : w ≠ 0)
        push_cast
        rw [mul_div_mul_right _ _ hw0]
      simp only [calculateWeightedScore, hsumsw, hsumw, if_pos hpos]
      rw [key]

/-- Witness for C7 at concrete inputs: all-50 scores give 50; uniform
engagement gives the rounded mean `(40 + 61) / 2`. -/
theorem calculateWeightedScore_spec_witness :
    calculateWeightedScore [⟨50, 0⟩, ⟨50, 37⟩] = 50
    ∧ calculateWeightedScore [⟨40, 20⟩, ⟨61, 20⟩] =
        pyRound ((((([⟨40, 20⟩, ⟨61, 20⟩] :
          List SentimentResult).map (fun r => r.score)).sum : ℤ) : ℚ) /
          (([⟨40, 20⟩, ⟨61, 20⟩] : List SentimentResult).length : ℚ)) :=
  ⟨calculateWeightedScore_spec.2.1 [⟨50, 0⟩, ⟨50, 37⟩] (by decide),
    calculateWeightedScore_spec.2.2 [⟨40, 20⟩, ⟨61, 20⟩] 20 (by decide)
      (by decide)⟩

/-! ## Claim C4 -/

theorem preprocessLoop_mem (cfg : PreprocConfig) :
    ∀ (items : List CollectedItem) (seen : List String)
      (x : CollectedItem), x ∈ preprocessLoop cfg seen items →
      x ∈ items ∧ isValid cfg x = true ∧ x.sourceId ∉ seen := by
  intro items
  induction items with
  | nil => intro seen x hx; simp [preprocessLoop] at hx
  | cons it rest ih =>
    intro seen x hx
    by_cases h1 : it.sourceId ∈ seen
    · rw [preprocessLoop, if_pos h1] at hx
      obtain ⟨hm, hv, hs⟩ := ih seen x hx
      exact ⟨List.mem_cons_of_mem it hm, hv, hs⟩
    · by_cases h2 : isValid cfg it = true
      · rw [preprocessLoop, if_neg h1, if_neg (by simp [h2])] at hx
        rcases List.mem_cons.mp hx with rfl | hx
        · exact ⟨List.mem_cons_self _ _, h2, h1⟩
        · obtain ⟨hm, hv, hs⟩ := ih (it.sourceId :: seen) x hx
          exact ⟨List.mem_cons_of_mem it hm, hv,
            fun hmem => hs (List.mem_cons_of_mem _ hmem)⟩
      · rw [preprocessLoop, if_neg h1,
          if_pos (by simp [Bool.not_eq_true] at h2 ⊢; exact h2)] at hx
        obtain ⟨hm, hv, hs⟩ := ih seen x hx
        exact ⟨List.mem_cons_of_mem it hm, hv, hs⟩

theorem preprocessLoop_sourceIds_nodup (cfg : PreprocConfig) :
    ∀ (items : List CollectedItem) (seen : List String),
      ((preprocessLoop cfg seen items).map (fun it => it.sourceId)).Nodup := by
  intro items
  induction items with
  | nil => intro seen; simp [preprocessLoop]
  | cons it rest ih =>
    intro seen
    by_cases h1 : it.sourceId ∈ seen
    · rw [preprocessLoop, if_pos h1]; exact ih seen
    · by_cases h2 : isValid cfg it = true
      · rw [preprocessLoop, if_neg h1, if_neg (by simp [h2])]
        refine List.Nodup.cons ?_ (ih (it.sourceId :: seen))
        intro hmem
        obtain ⟨x, hx, hxid⟩ := List.mem_map.mp hmem
        obtain ⟨_, _, hs⟩ := preprocessLoop_mem cfg rest (it.sourceId :: seen) x hx
        exact hs (by rw [hxid]; exact List.mem_cons_self _ _)
      · rw [preprocessLoop, if_neg h1,
          if_pos (by simp [Bool.not_eq_true] at h2 ⊢; exact h2)]
        exact ih seen

theorem preprocessLoop_keeps_first (cfg : PreprocConfig) :
    ∀ (pre : List CollectedItem) (it : CollectedItem)
      (post : List CollectedItem) (seen : List String),
      isValid cfg it = true → it.sourceId ∉ seen →
      (∀ y ∈ pre, isValid cfg y = true → y.sourceId ≠ it.sourceId) →
      it ∈ preprocessLoop cfg seen (pre ++ it :: post) := by
  intro pre
  induction pre with
  | nil =>
    intro it post seen hv hs _
    rw [List.nil_append, preprocessLoop, if_neg hs, if_neg (by simp [hv])]
    exact List.mem_cons_self _ _
  | cons y pre ih =>
    intro it post seen hv hs hpre
    rw [List.cons_append]
    by_cases h1 : y.sourceId ∈ seen
    · rw [preprocessLoop, if_pos h1]
      exact ih it post seen hv hs (fun z hz => hpre z (List.mem_cons_of_mem y hz))
    · by_cases h2 : isValid cfg y = true
      · rw [preprocessLoop, if_neg h1, if_neg (by simp [h2])]
        refine List.mem_cons_of_mem y (ih it post (y.sourceId :: seen) hv ?_
          (fun z hz => hpre z (List.mem_cons_of_mem y hz)))
        intro hmem
        rcases List.mem_cons.mp hmem with heq | hmem2
        · exact hpre y (List.mem_cons_self y pre) h2 heq.symm
        · exact hs hmem2
      · rw [preprocessLoop, if_neg h1,
          if_pos (by simp [Bool.not_eq_true] at h2 ⊢; exact h2)]
        exact ih it post seen hv hs
          (fun z hz => hpre z (List.mem_cons_of_mem y hz))

/-- C4 (amended): `preprocess` deduplicates by `source_id` alone,
keeping the first valid occurrence; retained items are valid input
items, no two retained items share a `source_id` (whatever their
platforms), and a valid item preceded by no valid item with the same
`source_id` is retained. -/
theorem preprocess_dedup_spec (cfg : PreprocConfig)
    (items : List CollectedItem) :
    ((preprocess cfg items).map (fun it => it.sourceId)).Nodup
    ∧ (∀ x ∈ preprocess cfg items, x ∈ items ∧ isValid cfg x = true)
    ∧ (∀ (pre : List CollectedItem) (it : CollectedItem)
        (post : List CollectedItem),
        items = pre ++ it :: post → isValid cfg it = true →
        (∀ y ∈ pre, isValid cfg y = true → y.sourceId ≠ it.sourceId) →
        it ∈ preprocess cfg items) := by
  have hperm : (preprocess cfg items).Perm (preprocessLoop cfg [] items) :=
    List.perm_insertionSort _ _
  refine ⟨?_, ?_, ?_⟩
  · exact ((hperm.map (fun it => it.sourceId)).nodup_iff).mpr
      (preprocessLoop_sourceIds_nodup cfg items [])
  · intro x hx
    obtain ⟨hm, hv, _⟩ := preprocessLoop_mem cfg items [] x (hperm.mem_iff.mp hx)
    exact ⟨hm, hv⟩
  · intro pre it post hitems hv hpre
    refine hperm.mem_iff.mpr ?_
    rw [hitems]
    exact preprocessLoop_keeps_first cfg pre it post [] hv (by simp) hpre

/-- Witness for C4's amended theorem at a concrete instance: the first
valid item with a fresh `source_id` is retained. -/
theorem preprocess_dedup_spec_witness :
    fixtureItemRedditA ∈
      preprocess fixturePreprocConfig [fixtureItemRedditA, fixtureItemYoutubeA] :=
  (preprocess_dedup_spec fixturePreprocConfig
      [fixtureItemRedditA, fixtureItemYoutubeA]).2.2
    [] fixtureItemRedditA [fixtureItemYoutubeA] rfl (by decide)
    (by intro y hy; simp at hy)

/-- Counterexample to C4 as stated: two valid items with the same
`source_id` on different platforms are NOT both retained — the dedup
key is `source_id` alone, so only the first survives. -/
theorem preprocess_dedup_counterexample :
    isValid fixturePreprocConfig fixtureItemRedditA = true
    ∧ isValid fixturePreprocConfig fixtureItemYoutubeA = true
    ∧ fixtureItemRedditA.platform ≠ fixtureItemYoutubeA.platform
    ∧ fixtureItemRedditA.sourceId = fixtureItemYoutubeA.sourceId
    ∧ (preprocess fixturePreprocConfig
        [fixtureItemRedditA, fixtureItemYoutubeA]).map
          (fun it => (it.platform, it.sourceId)) = [("reddit", "a")] := by
  refine ⟨by decide, by decide, by decide, by decide, by decide⟩

/-! ## Claim C6 -/

theorem decayLambda_pos : 0 < decayLambda := by
  unfold decayLambda
  have h2 : (0 : ℝ) < Real.log 2 := Real.log_pos (by norm_num)
  positivity

/-- C6 (amended): the heat computation is a pure function of its
inputs (determinism is definitional in the embedding); the heat index
of an empty engagement list is `0.0`; and an item identical in all
metrics but with a strictly larger `age_hours` has a strictly smaller
`weighted_engagement`, provided its base engagement is positive
(a zero-engagement item contributes `0` at every age). -/
theorem heatScoring_spec :
    (∀ (totalEngagement : ℝ) (totalItems platformCount expectedCount
        expectedPlatformsLen : ℕ),
      calcHeatIndexFromStats [] totalEngagement totalItems platformCount
        expectedCount expectedPlatformsLen = 0)
    ∧ (∀ (m : Metrics) (now p1 p2 : ℝ),
        0 < m.upvotes + m.likes + m.views.fdiv 100 + m.numComments * 5 →
        ageHours now p2 < ageHours now p1 →
        weightedEngagementFromMetrics m (some p1) now decayLambda <
          weightedEngagementFromMetrics m (some p2) now decayLambda) := by
  refine ⟨fun _ _ _ _ _ => rfl, ?_⟩
  intro m now p1 p2 hbase hage
  unfold weightedEngagementFromMetrics
  have hbase' : (0 : ℝ) <
      ((m.upvotes + m.likes + m.views.fdiv 100 + m.numComments * 5 : ℤ) : ℝ) := by
    exact_mod_cast hbase
  refine mul_lt_mul_of_pos_left ?_ hbase'
  refine Real.exp_lt_exp.mpr ?_
  have := mul_lt_mul_of_pos_left hage decayLambda_pos
  linarith

/-- Witness for C6's amended strict-decrease at a concrete instance:
one upvote, ages 1h vs 0h. -/
theorem heatScoring_spec_witness :
    weightedEngagementFromMetrics ⟨1, 0, 0, 0⟩ (some (-1)) 0 decayLambda <
      weightedEngagementFromMetrics ⟨1, 0, 0, 0⟩ (some 0) 0 decayLambda :=
  heatScoring_spec.2 ⟨1, 0, 0, 0⟩ 0 (-1) 0 (by decide)
    (by norm_num [ageHours])

/-- Counterexample to C6 as stated: for an item with all-zero metrics
the base engagement is `0`, so a strictly larger `age_hours` yields an
equal (not strictly smaller) `weighted_engagement`. -/
theorem heatScoring_counterexample :
    ageHours 0 0 < ageHours 0 (-1)
    ∧ weightedEngagementFromMetrics ⟨0, 0, 0, 0⟩ (some (-1)) 0 decayLambda =
        weightedEngagementFromMetrics ⟨0, 0, 0, 0⟩ (some 0) 0 decayLambda := by
  constructor
  · norm_num [ageHours]
  · show ((0 : ℤ) : ℝ) * _ = ((0 : ℤ) : ℝ) * _
    norm_num

/-! ## Claim C8 -/

/-- C8 (amended): the validator accepts exactly the non-empty outlines
whose first non-blank line is `mindmap`, with exactly one
root-declaration line, exactly one sentiment-branch line, at least one
label-indented line anywhere (the code does not require it to sit
beneath the sentiment branch, nor that it be unique), and at least two
opinion-branch lines at the sentiment branch's indentation level; every
rejection carries a non-empty reason. -/
theorem validateMermaidOutput_spec (code : String) :
    ((validateMermaidOutput code).1 = true ↔
      (mermaidLines code ≠ []
        ∧ pyStrip ((mermaidLines code).headI) = "mindmap"
        ∧ (mermaidRootLines code).length = 1
        ∧ (mermaidSentimentLines code).length = 1
        ∧ mermaidLabelLines code ≠ []
        ∧ 2 ≤ (mermaidOpinionLabels code).length))
    ∧ ((validateMermaidOutput code).1 = false →
        (validateMermaidOutput code).2 ≠ "") := by
  unfold validateMermaidOutput
  split_ifs with h1 h2 h3 h4 h5 h6 <;> simp_all

/-- Witness for C8's amended characterization: a concrete accepted
outline satisfies all six conditions. -/
theorem validateMermaidOutput_spec_witness :
    mermaidLines "mindmap\n  root((kw))\n    Sentiment\n      Positive\n    Op one\n    Op two" ≠ []
    ∧ pyStrip ((mermaidLines "mindmap\n  root((kw))\n    Sentiment\n      Positive\n    Op one\n    Op two").headI) = "mindmap"
    ∧ (mermaidRootLines "mindmap\n  root((kw))\n    Sentiment\n      Positive\n    Op one\n    Op two").length = 1
    ∧ (mermaidSentimentLines "mindmap\n  root((kw))\n    Sentiment\n      Positive\n    Op one\n    Op two").length = 1
    ∧ mermaidLabelLines "mindmap\n  root((kw))\n    Sentiment\n      Positive\n    Op one\n    Op two" ≠ []
    ∧ 2 ≤ (mermaidOpinionLabels "mindmap\n  root((kw))\n    Sentiment\n      Positive\n    Op one\n    Op two").length :=
  (validateMermaidOutput_spec
    "mindmap\n  root((kw))\n    Sentiment\n      Positive\n    Op one\n    Op two").1.mp
    (by decide)

/-- Counterexample to C8 as stated: an outline with two label-indented
lines beneath the sentiment branch — violating "exactly one label line
beneath it" — is accepted by the validator. -/
theorem validateMermaidOutput_counterexample :
    validateMermaidOutput
        "mindmap\n  root((kw))\n    Sentiment\n      Positive\n      Negative\n    Op one\n    Op two" =
      (true, "")
    ∧ (mermaidLabelLines
        "mindmap\n  root((kw))\n    Sentiment\n      Positive\n      Negative\n    Op one\n    Op two").length = 2 := by
  refine ⟨by decide, by decide⟩

/-! ## Claim C2 -/

theorem boundedStep_sorted (capacity : ℕ) (heap : List (ℤ × ℕ)) (score : ℤ)
    (seq : ℕ) (hs : heap.Sorted heapLe) :
    (boundedStep capacity heap score seq).1.Sorted heapLe := by
  unfold boundedStep
  split
  · exact hs.orderedInsert _ _
  · match heap, hs with
    | [], _ => simp
    | m :: rest, hs =>
      simp only
      split
      · exact (hs.of_cons).orderedInsert _ _
      · exact hs

theorem boundedStep_length (capacity : ℕ) (heap : List (ℤ × ℕ)) (score : ℤ)
    (seq : ℕ) (hC : 1 ≤ capacity) (hlen : heap.length ≤ capacity) :
    (boundedStep capacity heap score seq).1.length =
      min capacity (heap.length + 1) := by
  unfold boundedStep
  split
  · rename_i hlt
    rw [List.orderedInsert_length]
    omega
  · rename_i hge
    match heap, hge, hlen with
    | [], hge, _ => simp at hge; omega
    | m :: rest, hge, hlen =>
      simp only [List.length_cons] at hge hlen ⊢
      split
      · rw [List.orderedInsert_length]; omega
      · simp only [List.length_cons]; omega

theorem boundedStep_discard_le (capacity : ℕ) (heap : List (ℤ × ℕ))
    (score : ℤ) (seq : ℕ) (hs : heap.Sorted heapLe) (d : ℤ × ℕ)
    (hd : (boundedStep capacity heap score seq).2 = some d) :
    ∀ e ∈ (boundedStep capacity heap score seq).1, d.1 ≤ e.1 := by
  by_cases hlt : heap.length < capacity
  · simp [boundedStep, hlt] at hd
  · match heap, hs, hlt with
    | [], _, hlt =>
      intro e he
      simp only [List.length_nil] at hlt
      simp [boundedStep, hlt] at he
    | m :: rest, hs, hlt =>
      simp only [List.length_cons] at hlt
      have hrest : ∀ b ∈ rest, m.1 ≤ b.1 := by
        intro b hb
        have := (List.sorted_cons.mp hs).1 b hb
        unfold heapLe at this
        omega
      by_cases hms : m.1 < score
      · obtain rfl : m = d := by simpa [boundedStep, hlt, hms] using hd
        intro e he
        simp only [boundedStep, List.length_cons, if_neg hlt, if_pos hms] at he
        rcases (List.mem_orderedInsert _).mp he with rfl | he2
        · exact le_of_lt hms
        · exact hrest e he2
      · obtain rfl : (score, seq) = d := by simpa [boundedStep, hlt, hms] using hd
        intro e he
        simp only [boundedStep, List.length_cons, if_neg hlt, if_neg hms] at he
        rcases List.mem_cons.mp he with rfl | he2
        · simpa using le_of_not_lt hms
        · exact le_trans (le_of_not_lt hms) (hrest e he2)

theorem runBoundedAux_length (capacity : ℕ) (hC : 1 ≤ capacity) :
    ∀ (scores : List ℤ) (heap : List (ℤ × ℕ)) (seq : ℕ),
      heap.length ≤ capacity →
      (runBoundedAux capacity heap seq scores).1.length =
        min capacity (heap.length + scores.length) := by
  intro scores
  induction scores with
  | nil => intro heap seq hlen; simp [runBoundedAux]; omega
  | cons s rest ih =>
    intro heap seq hlen
    simp only [runBoundedAux]
    have hstep := boundedStep_length capacity heap s seq hC hlen
    have hstep_le : (boundedStep capacity heap s seq).1.length ≤ capacity := by
      omega
    rw [ih (boundedStep capacity heap s seq).1 (seq + 1) hstep_le, hstep]
    simp only [List.length_cons]
    omega

theorem runBoundedAux_trace (capacity : ℕ) (hC : 1 ≤ capacity) :
    ∀ (scores : List ℤ) (heap : List (ℤ × ℕ)) (seq : ℕ),
      heap.Sorted heapLe → heap.length ≤ capacity →
      ∀ r ∈ (runBoundedAux capacity heap seq scores).2,
        r.heapBefore.Sorted heapLe ∧ r.heapBefore.length ≤ capacity ∧
        r.heapAfter = (boundedStep capacity r.heapBefore r.score r.seq).1 ∧
        r.discarded = (boundedStep capacity r.heapBefore r.score r.seq).2 := by
  intro scores
  induction scores with
  | nil => intro heap seq _ _ r hr; simp [runBoundedAux] at hr
  | cons s rest ih =>
    intro heap seq hsort hlen r hr
    simp only [runBoundedAux, List.mem_cons] at hr
    rcases hr with rfl | hr
    · exact ⟨hsort, hlen, rfl, rfl⟩
    · have hstep_le : (boundedStep capacity heap s seq).1.length ≤ capacity := by
        have := boundedStep_length capacity heap s seq hC hlen
        omega
      exact ih (boundedStep capacity heap s seq).1 (seq + 1)
        (boundedStep_sorted capacity heap s seq hsort) hstep_le r hr

/-- C2: for every stream of scored items and capacity `C ≥ 1`, the
per-group bounded selection retains exactly `min(C, items seen)` items;
at every step the head of the (sorted) heap is its minimum; an incoming
item arriving at a full heap whose score does not exceed the current
minimum leaves the heap unchanged and is itself discarded (so equal
scores keep the earlier-inserted item, and replacement happens only on
strictly greater score — in which case the minimum is evicted); and
every discarded entry's score is ≤ every retained score at the time of
discard. -/
theorem boundedSelection_spec (capacity : ℕ) (hC : 1 ≤ capacity)
    (scores : List ℤ) :
    (runBounded capacity scores).1.length = min capacity scores.length
    ∧ (∀ r ∈ (runBounded capacity scores).2, ∀ m rest,
        r.heapBefore = m :: rest → ∀ e ∈ r.heapBefore, m.1 ≤ e.1)
    ∧ (∀ r ∈ (runBounded capacity scores).2, ∀ d, r.discarded = some d →
        ∀ e ∈ r.heapAfter, d.1 ≤ e.1)
    ∧ (∀ r ∈ (runBounded capacity scores).2, ∀ m rest,
        r.heapBefore = m :: rest → r.heapBefore.length = capacity →
        r.score ≤ m.1 →
        r.heapAfter = r.heapBefore ∧ r.discarded = some (r.score, r.seq))
    ∧ (∀ r ∈ (runBounded capacity scores).2, ∀ m rest,
        r.heapBefore = m :: rest → r.heapBefore.length = capacity →
        m.1 < r.score →
        r.heapAfter = List.orderedInsert heapLe (r.score, r.seq) rest ∧
          r.discarded = some m) := by
  have htrace := runBoundedAux_trace capacity hC scores [] 1 (by simp) (by simp)
  refine ⟨?_, ?_, ?_, ?_, ?_⟩
  · have := runBoundedAux_length capacity hC scores [] 1 (by simp)
    simpa [runBounded] using this
  · intro r hr m rest hbefore e he
    obtain ⟨hsort, _, _, _⟩ := htrace r hr
    rw [hbefore] at hsort he
    rcases List.mem_cons.mp he with rfl | he2
    · exact le_refl _
    · have := (List.sorted_cons.mp hsort).1 e he2
      unfold heapLe at this
      omega
  · intro r hr d hd e he
    obtain ⟨hsort, _, hafter, hdisc⟩ := htrace r hr
    rw [hdisc] at hd
    rw [hafter] at he
    exact boundedStep_discard_le capacity r.heapBefore r.score r.seq hsort d hd
      e he
  · intro r hr m rest hbefore hfull hle
    obtain ⟨_, _, hafter, hdisc⟩ := htrace r hr
    have hstep : boundedStep capacity r.heapBefore r.score r.seq =
        (r.heapBefore, some (r.score, r.seq)) := by
      unfold boundedStep
      rw [if_neg (by omega)]
      rw [hbefore]
      simp only
      rw [if_neg (by omega)]
    rw [hafter, hdisc, hstep]
    exact ⟨rfl, rfl⟩
  · intro r hr m rest hbefore hfull hgt
    obtain ⟨_, _, hafter, hdisc⟩ := htrace r hr
    have hstep : boundedStep capacity r.heapBefore r.score r.seq =
        (List.orderedInsert heapLe (r.score, r.seq) rest, some m) := by
      unfold boundedStep
      rw [if_neg (by omega)]
      rw [hbefore]
      simp only
      rw [if_pos hgt]
    rw [hafter, hdisc, hstep]
    exact ⟨rfl, rfl⟩

/-- Witness for C2 at `C = 1`, scores `[5, 4]`: one item retained. -/
theorem boundedSelection_spec_witness :
    (runBounded 1 [5, 4]).1.length = min 1 2 :=
  (boundedSelection_spec 1 (by decide) [5, 4]).1

/-! ## Claim C10 -/

theorem batchChunks_flatten {α : Type} (bs : ℕ) (hbs : 1 ≤ bs) (l : List α) :
    (batchChunks bs l).flatten = l := by
  have main : ∀ (n : ℕ) (l : List α), l.length ≤ n →
      (batchChunks bs l).flatten = l := by
    intro n
    induction n with
    | zero =>
      intro l hl
      have : l = [] := List.eq_nil_of_length_eq_zero (by omega)
      subst this
      rw [batchChunks]
      rw [dif_neg (by omega)]
      rfl
    | succ n ih =>
      intro l hl
      match l with
      | [] =>
        rw [batchChunks]
        rw [dif_neg (by omega)]
        rfl
      | x :: rest =>
        rw [batchChunks]
        rw [dif_neg (by omega)]
        simp only [List.flatten_cons]
        have hdrop : ((x :: rest).drop bs).length ≤ n := by
          simp only [List.length_drop, List.length_cons] at *
          omega
        rw [ih _ hdrop, List.take_append_drop]
  exact main l.length l (le_refl _)

theorem analyzeSingleBatch_ids (batch : List CollectedItem)
    (oracle : OracleOutcome) :
    (analyzeSingleBatch batch oracle).map (fun r => (r.sourceId, r.platform)) =
      batch.map (fun it => (it.sourceId, it.platform)) := by
  have hfall : (fallbackBatchResults batch).map
      (fun r => (r.sourceId, r.platform)) =
      batch.map (fun it => (it.sourceId, it.platform)) := by
    simp [fallbackBatchResults, List.map_map, Function.comp]
  have hbuilt : ∀ scoresData, (buildBatchResults batch scoresData).map
      (fun r => (r.sourceId, r.platform)) =
      batch.map (fun it => (it.sourceId, it.platform)) := by
    intro scoresData
    unfold buildBatchResults
    rw [List.map_map]
    have : ((fun r : SentimentBatchResult => (r.sourceId, r.platform)) ∘
        (fun p : ℕ × CollectedItem =>
          ({ sourceId := p.2.sourceId
             score := (resolveEntry scoresData (p.1 + 1)).score.getD 50
             keyPhrases := (resolveEntry scoresData (p.1 + 1)).keyPhrases.getD []
             platform := p.2.platform
             engagement := p.2.metrics.upvotes + p.2.metrics.likes } :
              SentimentBatchResult))) =
        (fun it : CollectedItem => (it.sourceId, it.platform)) ∘ Prod.snd := rfl
    rw [this, ← List.map_map, List.enum_map_snd]
  match oracle with
  | .providerError => exact hfall
  | .responses fp rp re =>
    have hdef : analyzeSingleBatch batch (.responses fp rp re) =
        match (analyzeJsonWithRepair
          (fun data => validateSentimentResponse data batch.length)
          fp rp re).result with
        | .ok response => buildBatchResults batch (response.scores.getD [])
        | .failure _ => fallbackBatchResults batch := rfl
    rw [hdef]
    cases hres : (analyzeJsonWithRepair
        (fun data => validateSentimentResponse data batch.length)
        fp rp re).result with
    | ok response => exact hbuilt _
    | failure msg => exact hfall

/-- C10: `analyze_batch` returns exactly one result per input item, in
the original order, each carrying that item's `source_id` and
`platform` (stated as an equality of the projected lists, which also
forces equal lengths); a provider failure or an exhausted repair
protocol for a batch yields the per-item fallback, whose entries all
have score 50 and no key phrases; and when a (validated) response still
lacks a usable entry for an item's 1-based index — no entry carries
that `index` and the positional fallback is absent or not a dict — the
item's result defaults to score 50 and empty `key_phrases`. -/
theorem analyzeBatch_spec (batchSize : ℕ) (hbs : 1 ≤ batchSize)
    (items : List CollectedItem) (oracles : ℕ → OracleOutcome) :
    ((analyzeBatch batchSize items oracles).map
        (fun r => (r.sourceId, r.platform)) =
      items.map (fun it => (it.sourceId, it.platform)))
    ∧ (∀ batch : List CollectedItem,
        analyzeSingleBatch batch .providerError = fallbackBatchResults batch)
    ∧ (∀ (batch : List CollectedItem) fp rp re msg,
        (analyzeJsonWithRepair
            (fun data => validateSentimentResponse data batch.length)
            fp rp re).result = .failure msg →
        analyzeSingleBatch batch (.responses fp rp re) =
          fallbackBatchResults batch)
    ∧ (∀ batch : List CollectedItem, ∀ r ∈ fallbackBatchResults batch,
        r.score = 50 ∧ r.keyPhrases = [])
    ∧ (∀ (its : List CollectedItem)
        (scoresData : List (Option ScoreEntry)) (n : ℕ)
        (hn : n < (buildBatchResults its scoresData).length),
        indexMapLookup scoresData ((n : ℤ) + 1) = none →
        (scoresData.length ≤ n ∨ scoresData.getD n none = none) →
        ((buildBatchResults its scoresData).get ⟨n, hn⟩).score = 50
          ∧ ((buildBatchResults its scoresData).get ⟨n, hn⟩).keyPhrases = []) := by
  refine ⟨?_, fun _ => rfl, ?_, ?_, ?_⟩
  · unfold analyzeBatch
    rw [List.map_flatten, List.map_map]
    have hcongr : ∀ p ∈ (batchChunks batchSize items).enum,
        ((List.map (fun r : SentimentBatchResult => (r.sourceId, r.platform)) ∘
          fun p : ℕ × List CollectedItem =>
            analyzeSingleBatch p.2 (oracles p.1)) p) =
        ((fun b : List CollectedItem =>
          b.map (fun it => (it.sourceId, it.platform))) ∘ Prod.snd) p := by
      intro p _
      exact analyzeSingleBatch_ids p.2 (oracles p.1)
    rw [List.map_congr_left hcongr, ← List.map_map, List.enum_map_snd,
      ← List.map_flatten, batchChunks_flatten batchSize hbs]
  · intro batch fp rp re msg hfail
    have hdef : analyzeSingleBatch batch (.responses fp rp re) =
        match (analyzeJsonWithRepair
          (fun data => validateSentimentResponse data batch.length)
          fp rp re).result with
        | .ok response => buildBatchResults batch (response.scores.getD [])
        | .failure _ => fallbackBatchResults batch := rfl
    rw [hdef, hfail]
  · intro batch r hr
    obtain ⟨it, _, rfl⟩ := List.mem_map.mp hr
    exact ⟨rfl, rfl⟩
  · intro its scoresData n hn hlookup hpos
    have hresolve : resolveEntry scoresData (n + 1) = ⟨none, none, none⟩ := by
      unfold resolveEntry
      have : ((n + 1 : ℕ) : ℤ) = (n : ℤ) + 1 := by push_cast; ring
      rw [this, hlookup]
      rcases hpos with hlen | hnone
      · rw [if_neg (by omega)]
      · by_cases hlt : n + 1 - 1 < scoresData.length
        · rw [if_pos hlt]
          have hn' : scoresData.getD (n + 1 - 1) none = none := by
            simpa using hnone
          rw [hn']
        · rw [if_neg hlt]
    have hget : (buildBatchResults its scoresData).get ⟨n, hn⟩ =
        { sourceId := (its.enum.get ⟨n, by
            simpa [buildBatchResults] using hn⟩).2.sourceId
          score := (resolveEntry scoresData
            ((its.enum.get ⟨n, by simpa [buildBatchResults] using hn⟩).1 + 1)).score.getD 50
          keyPhrases := (resolveEntry scoresData
            ((its.enum.get ⟨n, by simpa [buildBatchResults] using hn⟩).1 + 1)).keyPhrases.getD []
          platform := (its.enum.get ⟨n, by
            simpa [buildBatchResults] using hn⟩).2.platform
          engagement := (its.enum.get ⟨n, by
            simpa [buildBatchResults] using hn⟩).2.metrics.upvotes +
            (its.enum.get ⟨n, by
              simpa [buildBatchResults] using hn⟩).2.metrics.likes } := by
      simp [buildBatchResults, List.get_eq_getElem, List.getElem_map]
    have hfst : (its.enum.get ⟨n, by
        simpa [buildBatchResults] using hn⟩).1 = n := by
      simp [List.get_eq_getElem, List.getElem_enum]
    rw [hget, hfst, hresolve]
    exact ⟨rfl, rfl⟩

/-- Witness for C10 at a concrete instance: one item, provider failure
— the single result carries the item's identity. -/
theorem analyzeBatch_spec_witness :
    (analyzeBatch 10 [fixtureItemRedditA] (fun _ => .providerError)).map
        (fun r => (r.sourceId, r.platform)) =
      [fixtureItemRedditA].map (fun it => (it.sourceId, it.platform)) :=
  (analyzeBatch_spec 10 (by decide) [fixtureItemRedditA]
    (fun _ => .providerError)).1

/-! ## Claim C5 -/

theorem pickOutliersAux_subset (sel : Finset ℕ) (count : ℕ) :
    ∀ (order acc : List ℕ), ∀ x ∈ pickOutliersAux sel count order acc,
      x ∈ order ∨ x ∈ acc := by
  intro order
  induction order with
  | nil =>
    intro acc x hx
    simp only [pickOutliersAux] at hx
    exact Or.inr (List.mem_reverse.mp hx)
  | cons i rest ih =>
    intro acc x hx
    simp only [pickOutliersAux] at hx
    split at hx
    · rcases ih acc x hx with h | h
      · exact Or.inl (List.mem_cons_of_mem i h)
      · exact Or.inr h
    · split at hx
      · rcases List.mem_cons.mp (List.mem_reverse.mp hx) with rfl | h2
        · exact Or.inl (List.mem_cons_self _ _)
        · exact Or.inr h2
      · rcases ih (i :: acc) x hx with h | h
        · exact Or.inl (List.mem_cons_of_mem i h)
        · rcases List.mem_cons.mp h with rfl | h2
          · exact Or.inl (List.mem_cons_self _ _)
          · exact Or.inr h2

theorem pickOutliersAux_length (sel : Finset ℕ) (count : ℕ) :
    ∀ (order acc : List ℕ), acc.length < count →
      (pickOutliersAux sel count order acc).length ≤ count := by
  intro order
  induction order with
  | nil =>
    intro acc hacc
    simp only [pickOutliersAux, List.length_reverse]
    omega
  | cons i rest ih =>
    intro acc hacc
    simp only [pickOutliersAux]
    split
    · exact ih acc hacc
    · split
      · rename_i hcnt
        simp only [List.length_reverse, List.length_cons]
        omega
      · rename_i hcnt
        refine ih (i :: acc) ?_
        simp only [List.length_cons] at hcnt ⊢
        omega

theorem shrinkLoop_subset (target : ℕ) :
    ∀ (cands : List ℕ) (s : Finset ℕ), shrinkLoop target s cands ⊆ s := by
  intro cands
  induction cands with
  | nil => intro s; simp [shrinkLoop]
  | cons c rest ih =>
    intro s
    simp only [shrinkLoop]
    split
    · exact (ih (s.erase c)).trans (Finset.erase_subset c s)
    · exact le_refl s

theorem shrinkLoop_card_le (target : ℕ) :
    ∀ (cands : List ℕ) (s : Finset ℕ),
      (s \ cands.toFinset).card ≤ target →
      (shrinkLoop target s cands).card ≤ target := by
  intro cands
  induction cands with
  | nil =>
    intro s h
    simpa [shrinkLoop] using h
  | cons c rest ih =>
    intro s h
    simp only [shrinkLoop]
    split
    · refine ih (s.erase c) ?_
      have : s.erase c \ rest.toFinset = s \ (c :: rest).toFinset := by
        rw [Finset.erase_eq, sdiff_sdiff, List.toFinset_cons, Finset.insert_eq]
        rfl
      rw [this]
      exact h
    · omega

theorem fillLoop_subset (target : ℕ) :
    ∀ (order : List ℕ) (s : Finset ℕ),
      fillLoop target s order ⊆ s ∪ order.toFinset := by
  intro order
  induction order with
  | nil => intro s; simp [fillLoop]
  | cons i rest ih =>
    intro s
    simp only [fillLoop]
    split
    · split
      · refine (ih s).trans ?_
        intro x hx
        rcases Finset.mem_union.mp hx with h | h
        · exact Finset.mem_union_left _ h
        · exact Finset.mem_union_right _ (by simp [h])
      · refine (ih (insert i s)).trans ?_
        intro x hx
        rcases Finset.mem_union.mp hx with h | h
        · rcases Finset.mem_insert.mp h with rfl | h2
          · exact Finset.mem_union_right _ (by simp)
          · exact Finset.mem_union_left _ h2
        · exact Finset.mem_union_right _ (by simp [h])
    · exact Finset.subset_union_left

theorem fillLoop_card (target : ℕ) :
    ∀ (order : List ℕ) (s : Finset ℕ), order.Nodup → s.card ≤ target →
      target ≤ s.card + (order.filter (fun x => decide (x ∉ s))).length →
      (fillLoop target s order).card = target := by
  intro order
  induction order with
  | nil =>
    intro s _ hle hge
    simp only [List.filter_nil, List.length_nil] at hge
    simp only [fillLoop]
    omega
  | cons i rest ih =>
    intro s hnd hle hge
    simp only [fillLoop]
    split
    · rename_i hlt
      by_cases hi : i ∈ s
      · rw [if_pos hi]
        refine ih s hnd.of_cons hle ?_
        have : List.filter (fun x => decide (x ∉ s)) (i :: rest) =
            List.filter (fun x => decide (x ∉ s)) rest := by
          simp [List.filter_cons, hi]
        rw [this] at hge
        exact hge
      · rw [if_neg hi]
        have hcard : (insert i s).card = s.card + 1 :=
          Finset.card_insert_of_not_mem hi
        have hfilter : List.filter (fun x => decide (x ∉ insert i s)) rest =
            List.filter (fun x => decide (x ∉ s)) rest := by
          refine List.filter_congr ?_
          intro x hx
          have hxi : x ≠ i := fun hxi =>
            (List.nodup_cons.mp hnd).1 (hxi ▸ hx)
          simp [Finset.mem_insert, hxi]
        refine ih (insert i s) hnd.of_cons (by omega) ?_
        rw [hfilter, hcard]
        have : List.filter (fun x => decide (x ∉ s)) (i :: rest) =
            i :: List.filter (fun x => decide (x ∉ s)) rest := by
          simp [List.filter_cons, hi]
        rw [this] at hge
        simp only [List.length_cons] at hge
        omega
    · rename_i hnlt
      omega

theorem filter_mem_length_le (s : Finset ℕ) (order : List ℕ)
    (hnd : order.Nodup) :
    (order.filter (fun x => decide (x ∈ s))).length ≤ s.card := by
  have hnd2 : (order.filter (fun x => decide (x ∈ s))).Nodup :=
    hnd.filter _
  rw [← List.toFinset_card_of_nodup hnd2]
  refine Finset.card_le_card ?_
  intro x hx
  have := List.mem_filter.mp (List.mem_toFinset.mp hx)
  simpa using this.2

theorem length_le_card_add_filter_not (s : Finset ℕ) (order : List ℕ)
    (hnd : order.Nodup) :
    order.length ≤ s.card + (order.filter (fun x => decide (x ∉ s))).length := by
  have hperm := List.filter_append_perm (fun x => decide (x ∈ s)) order
  have hlen := hperm.length_eq
  rw [List.length_append] at hlen
  have hcongr : order.filter (fun x => !decide (x ∈ s)) =
      order.filter (fun x => decide (x ∉ s)) := by
    refine List.filter_congr ?_
    intro x _
    simp
  rw [hcongr] at hlen
  have := filter_mem_length_le s order hnd
  omega

theorem argsortAsc_perm (dist : ℕ → ℝ) (n : ℕ) :
    (argsortAsc dist n).Perm (List.range n) :=
  List.perm_insertionSort _ _

theorem coreSelection_subset (dist : ℕ → ℝ) (labels : List ℕ) (n : ℕ)
    (desired : ℕ → ℕ) :
    coreSelection dist labels n desired ⊆ Finset.range n := by
  unfold coreSelection
  have main : ∀ (ls : List ℕ) (acc : Finset ℕ), acc ⊆ Finset.range n →
      ls.foldl (fun acc l =>
        acc ∪ (((clusterMembers labels n l).insertionSort
          (fun i j => dist i ≤ dist j)).take
            (min (desired l) (clusterMembers labels n l).length)).toFinset) acc ⊆
        Finset.range n := by
    intro ls
    induction ls with
    | nil => intro acc h; simpa using h
    | cons l rest ih =>
      intro acc hacc
      simp only [List.foldl_cons]
      refine ih _ ?_
      intro x hx
      rcases Finset.mem_union.mp hx with h | h
      · exact hacc h
      · have hx2 : x ∈ (clusterMembers labels n l).insertionSort
            (fun i j => dist i ≤ dist j) :=
          List.mem_of_mem_take (List.mem_toFinset.mp h)
        have hx3 : x ∈ clusterMembers labels n l :=
          ((List.perm_insertionSort _ _).mem_iff).mp hx2
        have hx4 : x ∈ List.range n := (List.mem_filter.mp hx3).1
        simpa [Finset.mem_range] using List.mem_range.mp hx4
  exact main _ ∅ (by simp)

theorem outlierPicks_lt (dist : ℕ → ℝ) (n : ℕ) (selCore : Finset ℕ)
    (outlierCount : ℕ) :
    ∀ x ∈ outlierPicks dist n selCore outlierCount, x < n := by
  intro x hx
  unfold outlierPicks at hx
  split at hx
  · rcases pickOutliersAux_subset selCore outlierCount _ [] x hx with h | h
    · have : x ∈ argsortAsc dist n := List.mem_reverse.mp h
      exact List.mem_range.mp ((argsortAsc_perm dist n).mem_iff.mp this)
    · simp at h
  · simp at hx

theorem outlierPicks_length_le (dist : ℕ → ℝ) (n : ℕ) (selCore : Finset ℕ)
    (outlierCount : ℕ) :
    (outlierPicks dist n selCore outlierCount).length ≤ outlierCount := by
  unfold outlierPicks
  split
  · exact pickOutliersAux_length selCore outlierCount _ [] (by simpa)
  · simp

theorem afterShrink_card_le (target : ℕ) (dist : ℕ → ℝ) (n : ℕ)
    (selCore : Finset ℕ) (outlierCount : ℕ) (hoc : outlierCount ≤ target) :
    (afterShrink target dist n selCore outlierCount).card ≤ target := by
  unfold afterShrink
  set s1 := selCore ∪ (outlierPicks dist n selCore outlierCount).toFinset
  set outF := (outlierPicks dist n selCore outlierCount).toFinset
  refine shrinkLoop_card_le target _ _ ?_
  have htf : ((((s1 \ outF).sort (· ≤ ·)).insertionSort
      (fun i j => dist i ≤ dist j)).toFinset) = s1 \ outF := by
    rw [List.toFinset_eq_of_perm _ _ (List.perm_insertionSort _ _)]
    exact Finset.sort_toFinset _ _
  rw [htf]
  have hsub : s1 \ (s1 \ outF) ⊆ outF := by
    intro x hx
    have := Finset.mem_sdiff.mp hx
    rcases Finset.mem_sdiff.mp hx with ⟨hx1, hx2⟩
    by_contra hxo
    exact hx2 (Finset.mem_sdiff.mpr ⟨hx1, hxo⟩)
  refine le_trans (Finset.card_le_card hsub) ?_
  refine le_trans (List.toFinset_card_le _) ?_
  exact le_trans (outlierPicks_length_le dist n selCore outlierCount) hoc

theorem afterShrink_subset (target : ℕ) (dist : ℕ → ℝ) (n : ℕ)
    (selCore : Finset ℕ) (outlierCount : ℕ)
    (hcore : selCore ⊆ Finset.range n) :
    afterShrink target dist n selCore outlierCount ⊆ Finset.range n := by
  unfold afterShrink
  refine (shrinkLoop_subset target _ _).trans ?_
  intro x hx
  rcases Finset.mem_union.mp hx with h | h
  · exact hcore h
  · have := outlierPicks_lt dist n selCore outlierCount x
      (List.mem_toFinset.mp h)
    simpa [Finset.mem_range]

theorem finalSelection_spec (target : ℕ) (dist : ℕ → ℝ) (n : ℕ)
    (selCore : Finset ℕ) (outlierCount : ℕ)
    (hcore : selCore ⊆ Finset.range n) (hoc : outlierCount ≤ target)
    (htn : target ≤ n) :
    (finalSelection target dist n selCore outlierCount).card = target
    ∧ finalSelection target dist n selCore outlierCount ⊆ Finset.range n := by
  have hshrink_card := afterShrink_card_le target dist n selCore outlierCount hoc
  have hshrink_sub := afterShrink_subset target dist n selCore outlierCount hcore
  have hargnd : (argsortAsc dist n).Nodup :=
    ((argsortAsc_perm dist n).nodup_iff).mpr (List.nodup_range n)
  constructor
  · unfold finalSelection
    refine fillLoop_card target _ _ hargnd hshrink_card ?_
    have h1 := length_le_card_add_filter_not
      (afterShrink target dist n selCore outlierCount) (argsortAsc dist n) hargnd
    have h2 : (argsortAsc dist n).length = n := by
      rw [(argsortAsc_perm dist n).length_eq, List.length_range]
    omega
  · unfold finalSelection
    refine (fillLoop_subset target _ _).trans ?_
    intro x hx
    rcases Finset.mem_union.mp hx with h | h
    · exact hshrink_sub h
    · have : x ∈ List.range n :=
        (argsortAsc_perm dist n).mem_iff.mp (List.mem_toFinset.mp h)
      simpa [Finset.mem_range] using List.mem_range.mp this

theorem take_eq_range_map {α : Type} (l : List α) (d : α) (t : ℕ)
    (ht : t ≤ l.length) :
    l.take t = (List.range t).map (fun i => l.getD i d) := by
  refine List.ext_getElem ?_ ?_
  · simp [List.length_take]; omega
  · intro n h1 h2
    have hn : n < t := by
      rw [List.length_take] at h1
      omega
    have hnl : n < l.length := by omega
    rw [List.getElem_take, List.getElem_map, List.getElem_range,
      List.getD_eq_getElem l d hnl]

theorem clusterAndSelect_spec (cfg : SamplerConfig)
    (kmeans : ℕ → List (List ℝ) → List ℕ × List (List ℝ))
    (embs : List (List ℝ)) (target : ℕ) :
    (clusterAndSelect cfg kmeans embs target).Sorted (· < ·)
    ∧ (∀ i ∈ clusterAndSelect cfg kmeans embs target, i < embs.length)
    ∧ (target < embs.length →
        (clusterAndSelect cfg kmeans embs target).length = target)
    ∧ (embs.length ≤ target →
        clusterAndSelect cfg kmeans embs target = List.range embs.length) := by
  unfold clusterAndSelect
  by_cases h1 : embs.length ≤ target
  · simp only [if_pos h1]
    refine ⟨List.sorted_lt_range _, fun i hi => List.mem_range.mp hi, ?_, ?_⟩
    · intro hlt
      omega
    · intro _
      trivial
  · simp only [if_neg h1]
    by_cases h2 : embs.length ≤
        min cfg.kMax (max cfg.kMin (Nat.sqrt embs.length))
    · simp only [if_pos h2]
      refine ⟨List.sorted_lt_range _, ?_, fun _ => List.length_range target,
        fun h => absurd h h1⟩
      intro i hi
      have := List.mem_range.mp hi
      omega
    · simp only [if_neg h2]
      generalize hfit : kmeans (min cfg.kMax (max cfg.kMin (Nat.sqrt
        embs.length))) embs = fit
      generalize hdist : distToCentroid embs fit.1 fit.2 = dist
      generalize hquota : desiredQuota fit.1 embs.length target = quota
      generalize hsel : coreSelection dist fit.1 embs.length quota = selCore
      generalize hoc2 : min (⌊(target : ℚ) * cfg.outlierRatio⌋.toNat) target = oc
      obtain ⟨hcard, hsub⟩ := finalSelection_spec target dist embs.length
        selCore oc (hsel ▸ coreSelection_subset dist fit.1 embs.length quota)
        (hoc2 ▸ min_le_right _ _) (by omega)
      have hlen : ((finalSelection target dist embs.length selCore oc).sort
          (· ≤ ·)).length = target := by
        rw [Finset.length_sort]
        exact hcard
      rw [List.take_of_length_le (le_of_eq hlen)]
      refine ⟨Finset.sort_sorted_lt _, ?_, fun _ => hlen, fun h => absurd h h1⟩
      intro i hi
      have := hsub ((Finset.mem_sort _).mp hi)
      simpa [Finset.mem_range] using this

/-- C5: for every candidate list and every sampler configuration, the
representative sampler returns exactly `min(target_count, N)` items,
drawn from the input without replacement (a strictly increasing list of
input positions); and on embedding-provider failure or an embedding
list whose length mismatches the candidates, it returns the first
`target_count` candidates in input order.  Quantified over every
behaviour of the external encoder and K-means. -/
theorem sample_spec (cfg : SamplerConfig)
    (encode : List String → Option (List (List ℝ)))
    (kmeans : ℕ → List (List ℝ) → List ℕ × List (List ℝ))
    (items : List CollectedItem) (hlen : items.length ≤ cfg.maxItems) :
    (∃ idxs : List ℕ, idxs.Sorted (· < ·) ∧ (∀ i ∈ idxs, i < items.length)
      ∧ sample cfg encode kmeans items =
          idxs.map (fun i => items.getD i default)
      ∧ idxs.length = min cfg.targetCount items.length)
    ∧ ((encode (items.map (buildText cfg.textMaxLength)) = none
        ∨ ∀ embs, encode (items.map (buildText cfg.textMaxLength)) = some embs →
            embs.length ≠ items.length) →
        sample cfg encode kmeans items =
          items.take (min cfg.targetCount items.length)) := by
  have htakemax : items.take cfg.maxItems = items := List.take_of_length_le hlen
  match items, hlen with
  | [], _ =>
    refine ⟨⟨[], by simp, by simp, rfl, by simp⟩, ?_⟩
    intro _
    simp [sample]
  | x :: rest, hlen =>
    have hne : (x :: rest).length ≠ 0 := by simp
    have hsample : sample cfg encode kmeans (x :: rest) =
        (if (x :: rest).length ≤ min cfg.targetCount (x :: rest).length then
          (x :: rest)
        else
          match (if ((x :: rest).map (buildText cfg.textMaxLength)).isEmpty
              then none
              else encode ((x :: rest).map (buildText cfg.textMaxLength))) with
          | none => (x :: rest).take (min cfg.targetCount (x :: rest).length)
          | some embs =>
            if embs.length ≠ (x :: rest).length then
              (x :: rest).take (min cfg.targetCount (x :: rest).length)
            else
              if (clusterAndSelect cfg kmeans embs
                  (min cfg.targetCount (x :: rest).length)).isEmpty then
                (x :: rest).take (min cfg.targetCount (x :: rest).length)
              else
                ((clusterAndSelect cfg kmeans embs
                    (min cfg.targetCount (x :: rest).length)).insertionSort
                  (· ≤ ·)).map (fun i => (x :: rest).getD i default)) := by
      unfold sample
      rw [htakemax]
    have hmapne : (((x :: rest).map (buildText cfg.textMaxLength)).isEmpty) =
        false := by simp
    by_cases hsmall : (x :: rest).length ≤ min cfg.targetCount (x :: rest).length
    · have htarget : min cfg.targetCount (x :: rest).length = (x :: rest).length := by
        omega
      rw [hsample, if_pos hsmall]
      refine ⟨⟨List.range (x :: rest).length, List.sorted_lt_range _,
        fun i hi => List.mem_range.mp hi, ?_, by rw [List.length_range, htarget]⟩,
        ?_⟩
      · have := take_eq_range_map (x :: rest) default (x :: rest).length
          (le_refl _)
        rw [List.take_of_length_le (le_refl _)] at this
        exact this
      · intro _
        rw [htarget, List.take_of_length_le (le_refl _)]
    · have htlt : min cfg.targetCount (x :: rest).length < (x :: rest).length := by
        omega
      rw [hsample, if_neg hsmall, hmapne]
      simp only [Bool.false_eq_true, if_false]
      cases henc : encode ((x :: rest).map (buildText cfg.textMaxLength)) with
      | none =>
        refine ⟨⟨List.range (min cfg.targetCount (x :: rest).length),
          List.sorted_lt_range _, ?_, ?_, List.length_range _⟩, fun _ => rfl⟩
        · intro i hi
          have := List.mem_range.mp hi
          omega
        · exact take_eq_range_map (x :: rest) default _ (le_of_lt htlt)
      | some embs =>
        dsimp only
        by_cases hmm : embs.length ≠ (x :: rest).length
        · rw [if_pos hmm]
          refine ⟨⟨List.range (min cfg.targetCount (x :: rest).length),
            List.sorted_lt_range _, ?_, ?_, List.length_range _⟩, fun _ => rfl⟩
          · intro i hi
            have := List.mem_range.mp hi
            omega
          · exact take_eq_range_map (x :: rest) default _ (le_of_lt htlt)
        · rw [if_neg hmm]
          push_neg at hmm
          obtain ⟨hsorted, hbound, hlen_sel, _⟩ :=
            clusterAndSelect_spec cfg kmeans embs
              (min cfg.targetCount (x :: rest).length)
          have hlensel : (clusterAndSelect cfg kmeans embs
              (min cfg.targetCount (x :: rest).length)).length =
              min cfg.targetCount (x :: rest).length :=
            hlen_sel (by omega)
          by_cases hempty : (clusterAndSelect cfg kmeans embs
              (min cfg.targetCount (x :: rest).length)).isEmpty
          · rw [if_pos hempty]
            have hzero : min cfg.targetCount (x :: rest).length = 0 := by
              have := List.isEmpty_iff.mp hempty
              rw [this] at hlensel
              simpa using hlensel.symm
            refine ⟨⟨[], by simp, by simp, ?_, by
              simp only [List.length_nil]
              omega⟩, fun _ => rfl⟩
            rw [hzero]
            simp
          · rw [if_neg hempty]
            have hperm : ((clusterAndSelect cfg kmeans embs
                (min cfg.targetCount (x :: rest).length)).insertionSort
                  (· ≤ ·)).Perm
                (clusterAndSelect cfg kmeans embs
                  (min cfg.targetCount (x :: rest).length)) :=
              List.perm_insertionSort _ _
            have hnodup : (clusterAndSelect cfg kmeans embs
                (min cfg.targetCount (x :: rest).length)).Nodup :=
              hsorted.imp (fun hab => ne_of_lt hab)
            refine ⟨⟨(clusterAndSelect cfg kmeans embs
                (min cfg.targetCount (x :: rest).length)).insertionSort (· ≤ ·),
              ?_, ?_, rfl, ?_⟩, ?_⟩
            · exact (List.sorted_insertionSort _ _).lt_of_le
                (hperm.nodup_iff.mpr hnodup)
            · intro i hi
              have := hbound i (hperm.mem_iff.mp hi)
              omega
            · rw [hperm.length_eq, hlensel]
            · intro hfail
              rcases hfail with hfail | hfail
              · exact absurd hfail (by simp)
              · exact absurd hmm (hfail embs rfl)

/-- Witness for C5 at a concrete instance: two items, capacity 200,
target 1, encoder failing — the sampler returns the first item. -/
theorem sample_spec_witness :
    sample (mkSamplerConfig 200 1 3 10 (1/10) 64 400) (fun _ => none)
        (fun _ _ => ([], []))
        [fixtureItemRedditA, fixtureItemYoutubeA] =
      [fixtureItemRedditA, fixtureItemYoutubeA].take
        (min (mkSamplerConfig 200 1 3 10 (1/10) 64 400).targetCount 2) :=
  (sample_spec (mkSamplerConfig 200 1 3 10 (1/10) 64 400) (fun _ => none)
      (fun _ _ => ([], [])) [fixtureItemRedditA, fixtureItemYoutubeA]
      (by decide)).2 (Or.inl rfl)

/-! ## Claim C9 -/

/-- C9: a run whose raw-row set is empty fails fast with "No data
collected": for every configuration and every possible behaviour of
`_run_analysis` (the only source of oracle/embedding calls), the task
is marked failed with that message, zero oracle and embedding calls are
made, and no `AnalysisResult` record is written. -/
theorem analyzeTask_empty_fails_fast (cfg : PreprocConfig) (capacity : ℕ)
    (now : ℝ)
    (runAnalysis : List CollectedItem → AnalysisEffects × Option AnalysisPayload) :
    analyzeTask cfg capacity now runAnalysis [] =
      { status := .failed, errorMessage := some "No data collected"
        oracleCalls := 0, embeddingCalls := 0, recordWritten := false } := rfl

end TrendPulse
